import Mathlib

/-!
Verification of the minimax search subsystem (`src/gamey/src/bot/minimax.rs`).

The Rust code is shallowly embedded as pure Lean functions.  The mutable
`MinimaxState` struct becomes an immutable structure; every Rust function that
mutates the state returns the updated state explicitly (`Bool × MinimaxState`,
`Int × MinimaxState`, ...).  Machine integers (`i32`, `u8`, `usize`) are
modelled as `Int` / `Nat` (the scores and ids that occur never approach the
`i32` range on the boards the engine is run on; `INFINITY = i32::MAX / 2` is
kept as its literal value).  Cells are identified by their linear index
`Fin n` where `n = total_cells`; the external `Coordinates.from_index /
to_index` bijection (not under `src/`) is left implicit, so functions that
return a `Coordinates` in Rust return the cell index here.  Rust's `Vec<u8>`
board and `FixedBitSet` become functions `Fin n → Nat` / `Fin n → Bool`;
the `visited : Vec<bool>` scratch buffer becomes a `Finset (Fin n)` and the
DFS `stack : Vec<usize>` a `List (Fin n)` whose head is the top of the stack.
The `while let Some(idx) = stack.pop()` loop of `dfs_collect_edges` is given
a fuel parameter; fuel `n` is provably sufficient (each iteration strictly
decreases `(n - visited.card) + stack.length`), so the fuelled function agrees
with the Rust loop.
-/

/-- `pub const WIN_SCORE: i32 = 100_000;` -/
def WIN_SCORE : Int := 100000

/-- `pub const LOSE_SCORE: i32 = -WIN_SCORE;` -/
def LOSE_SCORE : Int := -WIN_SCORE

/-- `const INFINITY: i32 = i32::MAX / 2;` (= 1073741823). -/
def INFINITY : Int := 1073741823

/-- The search state `MinimaxState` (board snapshot plus reusable scratch
buffers).  `board` is the owner array (0 = empty), `available_mask` the
bit-vector of available cells, the `*_cache` fields the immutable per-cell
metadata, and `visited` / `stack` the scratch buffers of `check_win`. -/
@[ext]
structure MinimaxState (n : Nat) where
  board : Fin n → Nat
  size : Nat
  available_mask : Fin n → Bool
  coords_cache : Fin n → Int × Int × Int
  neighbors_cache : Fin n → List (Fin n)
  edges_cache : Fin n → Nat
  bot_id : Nat
  human_id : Nat
  visited : Finset (Fin n)
  stack : List (Fin n)

namespace MinimaxState

variable {n : Nat}

/-- `fn make_move(&mut self, idx: usize, player: u8)`. -/
def make_move (s : MinimaxState n) (idx : Fin n) (player : Nat) : MinimaxState n :=
  { s with
    board := Function.update s.board idx player
    available_mask := Function.update s.available_mask idx false }

/-- `fn undo_move(&mut self, idx: usize)`. -/
def undo_move (s : MinimaxState n) (idx : Fin n) : MinimaxState n :=
  { s with
    board := Function.update s.board idx 0
    available_mask := Function.update s.available_mask idx true }

/-- `fn available_cells(&self)`: the indices of the set bits of
`available_mask`, in increasing order (the order `FixedBitSet::ones` yields). -/
def available_cells (s : MinimaxState n) : List (Fin n) :=
  (List.finRange n).filter (fun i => s.available_mask i)

/-- `fn occupied_cells(&self)`: the indices of the clear bits of
`available_mask`, in increasing order. -/
def occupied_cells (s : MinimaxState n) : List (Fin n) :=
  (List.finRange n).filter (fun i => !s.available_mask i)

end MinimaxState

section DFS

variable {n : Nat} (board edges : Fin n → Nat) (nbrs : Fin n → List (Fin n)) (player : Nat)

/-- The inner `for &neighbor in &self.neighbors_cache[idx]` loop of
`dfs_collect_edges`: push every unvisited cell of `player` onto the stack and
mark it visited.  `Vec::push` appends at the popping end, so pushing is `cons`. -/
def pushNbrs : Finset (Fin n) → List (Fin n) → List (Fin n) → Finset (Fin n) × List (Fin n)
  | v, st, [] => (v, st)
  | v, st, nb :: rest =>
    if board nb = player ∧ nb ∉ v then pushNbrs (insert nb v) (nb :: st) rest
    else pushNbrs v st rest

/-- The `while let Some(idx) = self.stack.pop()` loop of `dfs_collect_edges`,
with explicit fuel.  Returns the accumulated edge mask together with the final
`visited` and `stack` buffers; on the `edges_mask == 0b111` early exit the
unprocessed remainder of the stack is left in place, exactly as in Rust. -/
def dfsLoop : Nat → Finset (Fin n) → List (Fin n) → Nat → Nat × Finset (Fin n) × List (Fin n)
  | _, v, [], m => (m, v, [])
  | 0, v, st, m => (m, v, st)
  | fuel + 1, v, idx :: rest, m =>
    let m1 := m ||| edges idx
    if m1 = 7 then (m1, v, rest)
    else
      let p := pushNbrs board player v rest (nbrs idx)
      dfsLoop fuel p.1 p.2 m1

/-- The `for idx in 0..self.board.len()` loop of `check_win`, carrying the
`visited` and `stack` buffers (pure counterpart of `checkWinLoop` below). -/
def checkWinGo : List (Fin n) → Finset (Fin n) → List (Fin n) → Bool × Finset (Fin n) × List (Fin n)
  | [], v, st => (false, v, st)
  | idx :: rest, v, st =>
    if board idx = player ∧ edges idx ≠ 0 ∧ idx ∉ v then
      let r := dfsLoop board edges nbrs player n (insert idx v) [idx] 0
      if r.1 = 7 then (true, r.2.1, r.2.2)
      else checkWinGo rest r.2.1 r.2.2
    else checkWinGo rest v st

end DFS

namespace MinimaxState

variable {n : Nat}

/-- `fn dfs_collect_edges(&mut self, start: usize, player: u8) -> u8`:
clear the stack, push `start`, mark it visited, then run the collection loop.
Fuel `n` is sufficient for the loop to run to completion (see
`dfsLoop_measure`). -/
def dfs_collect_edges (s : MinimaxState n) (start : Fin n) (player : Nat) :
    Nat × MinimaxState n :=
  let r := dfsLoop s.board s.edges_cache s.neighbors_cache player n
    (insert start s.visited) [start] 0
  (r.1, { s with visited := r.2.1, stack := r.2.2 })

/-- The `for idx in 0..self.board.len()` loop of `check_win`. -/
def checkWinLoop (player : Nat) : List (Fin n) → MinimaxState n → Bool × MinimaxState n
  | [], s => (false, s)
  | idx :: rest, s =>
    if s.board idx = player ∧ s.edges_cache idx ≠ 0 ∧ idx ∉ s.visited then
      let r := s.dfs_collect_edges idx player
      if r.1 = 7 then (true, r.2) else checkWinLoop player rest r.2
    else checkWinLoop player rest s

/-- `fn check_win(&mut self, player: u8) -> bool`: clear the `visited`
buffer (`self.visited.fill(false)`), then scan all cells, starting a DFS from
every unvisited edge-touching cell of `player`; report a win as soon as one
DFS accumulates all three edge bits. -/
def check_win (s : MinimaxState n) (player : Nat) : Bool × MinimaxState n :=
  checkWinLoop player (List.finRange n) { s with visited := ∅ }

end MinimaxState

open MinimaxState

/-- The `for move_idx in moves` loop of `greedy_search`.  For each candidate
cell: tentatively place the bot's piece and test for an instant win, undo,
tentatively place the opponent's piece and test for an opponent win (forced
block).  On either hit the cell is returned immediately — note that on these
return paths the Rust code does **not** undo the tentative move. -/
def greedyGo {n : Nat} : MinimaxState n → List (Fin n) → Option (Fin n) × MinimaxState n
  | s, [] => (none, s)
  | s, move_idx :: rest =>
    let s1 := s.make_move move_idx s.bot_id
    let r1 := s1.check_win s1.bot_id
    if r1.1 then (some move_idx, r1.2)
    else
      let s2 := (r1.2).undo_move move_idx
      let s3 := s2.make_move move_idx s2.human_id
      let r2 := s3.check_win s3.human_id
      if r2.1 then (some move_idx, r2.2)
      else greedyGo ((r2.2).undo_move move_idx) rest

/-- `fn greedy_search(state: &mut MinimaxState) -> Option<Coordinates>`
(the returned coordinate is represented by its cell index). -/
def greedy_search {n : Nat} (state : MinimaxState n) : Option (Fin n) × MinimaxState n :=
  greedyGo state state.available_cells

/-- `neighbors` counter of `evaluate_position_strength`: the number of
neighbours of `idx` owned by `player`. -/
def same_owner_neighbors {n : Nat} (s : MinimaxState n) (player : Nat) (idx : Fin n) : Nat :=
  ((s.neighbors_cache idx).filter (fun j => s.board j = player)).length

/-- `off_center` of `evaluate_position_strength`:
`(x - y).abs() + (y - z).abs() + (z - x).abs()`. -/
def off_center {n : Nat} (s : MinimaxState n) (idx : Fin n) : Int :=
  let c := s.coords_cache idx
  |c.1 - c.2.1| + |c.2.1 - c.2.2| + |c.2.2 - c.1|

/-- The cells the `for idx in state.occupied_cells()` loop of
`evaluate_position_strength` actually processes: occupied cells owned by
`player` (`if state.board[idx] == player`). -/
def ownedCells {n : Nat} (s : MinimaxState n) (player : Nat) : List (Fin n) :=
  s.occupied_cells.filter (fun i => s.board i = player)

/-- `count_ones` of a `u8` edge mask. -/
def countOnes8 (m : Nat) : Nat :=
  m % 2 + m / 2 % 2 + m / 4 % 2 + m / 8 % 2 + m / 16 % 2 + m / 32 % 2 + m / 64 % 2 + m / 128 % 2

/-- `fn evaluate_position_strength(state: &MinimaxState, player: u8) -> i32`.
The single pass over the player's pieces accumulates four quantities
(well-connected-piece bonus, OR of touched edges, total connection count,
centre control); they are written here as four folds over the same list.
The `f32` centre-weight computation
`((1. - pieces/total) * 5.) * center_control as f32) as i32` is modelled by
exact rational arithmetic truncated toward zero
(`Int.tdiv (center_control * (5 * (total - pieces))) total`); the `total == 0`
case (a `NaN` that Rust's `as i32` saturates to 0) is mapped to 0. -/
def evaluate_position_strength {n : Nat} (s : MinimaxState n) (player : Nat) : Int :=
  let owned := ownedCells s player
  let bonus : Int :=
    (owned.map (fun i => if 2 ≤ same_owner_neighbors s player i then (40 : Int) else 0)).sum
  let edges_touched : Nat := owned.foldl (fun acc i => acc ||| s.edges_cache i) 0
  let total_connections : Int := (owned.map (fun i => (same_owner_neighbors s player i : Int))).sum
  let center_control : Int := (owned.map (fun i => 50 - off_center s i)).sum
  let edges_count : Int := countOnes8 edges_touched
  let pieces_on_board : Int := s.occupied_cells.length
  let edge_score := edges_count * 5
  let connections_score := total_connections * 25
  let center_score :=
    if n = 0 then 0 else Int.tdiv (center_control * (5 * ((n : Int) - pieces_on_board))) n
  bonus + edge_score + connections_score + center_score

/-- `fn evaluate_state(state: &mut MinimaxState) -> i32` (threading the
scratch-buffer mutations of the two `check_win` calls). -/
def evaluate_state {n : Nat} (s : MinimaxState n) : Int × MinimaxState n :=
  let r1 := s.check_win s.bot_id
  if r1.1 then (WIN_SCORE, r1.2)
  else
    let r2 := (r1.2).check_win (r1.2).human_id
    if r2.1 then (LOSE_SCORE, r2.2)
    else
      (evaluate_position_strength r2.2 (r2.2).bot_id
        - evaluate_position_strength r2.2 (r2.2).human_id, r2.2)

/-- The maximizing `for move_idx in moves` loop of `minimax`; `child` is the
recursive call at depth - 1.  `alpha = max(alpha, score)`, then
`if beta <= alpha break`. -/
def mmGoMax {n : Nat} (child : MinimaxState n → Int → Int → Int × MinimaxState n) :
    List (Fin n) → MinimaxState n → Int → Int → Int → Int × MinimaxState n
  | [], s, best, _, _ => (best, s)
  | move_idx :: rest, s, best, alpha, beta =>
    let s1 := s.make_move move_idx s.bot_id
    let r := child s1 alpha beta
    let s3 := (r.2).undo_move move_idx
    let best1 := max best r.1
    let alpha1 := max alpha r.1
    if beta ≤ alpha1 then (best1, s3)
    else mmGoMax child rest s3 best1 alpha1 beta

/-- The minimizing loop of `minimax`; `beta = min(beta, score)`, then
`if beta <= alpha break`. -/
def mmGoMin {n : Nat} (child : MinimaxState n → Int → Int → Int × MinimaxState n) :
    List (Fin n) → MinimaxState n → Int → Int → Int → Int × MinimaxState n
  | [], s, worst, _, _ => (worst, s)
  | move_idx :: rest, s, worst, alpha, beta =>
    let s1 := s.make_move move_idx s.human_id
    let r := child s1 alpha beta
    let s3 := (r.2).undo_move move_idx
    let worst1 := min worst r.1
    let beta1 := min beta r.1
    if beta1 ≤ alpha then (worst1, s3)
    else mmGoMin child rest s3 worst1 alpha beta1

/-- `fn minimax(state, depth, alpha, beta, maximizing_player) -> i32`
(alpha-beta pruning search). -/
def minimax {n : Nat} : Nat → MinimaxState n → Int → Int → Bool → Int × MinimaxState n
  | 0, s, _, _, _ => evaluate_state s
  | depth + 1, s, alpha, beta, maximizing_player =>
    if maximizing_player then
      mmGoMax (fun t a b => minimax depth t a b false) s.available_cells s (-INFINITY) alpha beta
    else
      mmGoMin (fun t a b => minimax depth t a b true) s.available_cells s INFINITY alpha beta

/-- `moves.iter().position(|&m| m == pv)`. -/
def position {n : Nat} (pv : Fin n) : List (Fin n) → Option Nat
  | [] => none
  | m :: rest => if m = pv then some 0 else (position pv rest).map (· + 1)

/-- The PV-move reordering of `search_best_move`: if the previous iteration's
best move occurs in the candidate list, swap it to the front
(`moves.swap(0, pos)`). -/
def moveOrder {n : Nat} (moves : List (Fin n)) : Option (Fin n) → List (Fin n)
  | none => moves
  | some pv =>
    match position pv moves with
    | none => moves
    | some pos => (moves.set 0 (moves.getD pos pv)).set pos (moves.getD 0 pv)

/-- The `for move_idx in moves` loop of `search_best_move`: full-window
alpha-beta search of every candidate, keeping the strictly best score
(`if score > best_score`). `depth` here is already the `depth - 1` passed to
`minimax`. -/
def sbmGo {n : Nat} (depth : Nat) :
    List (Fin n) → MinimaxState n → Fin n → Int → (Fin n × Int) × MinimaxState n
  | [], s, best_move, best_score => ((best_move, best_score), s)
  | move_idx :: rest, s, best_move, best_score =>
    let s1 := s.make_move move_idx s.bot_id
    let r := minimax depth s1 (-INFINITY) INFINITY false
    let s3 := (r.2).undo_move move_idx
    if best_score < r.1 then sbmGo depth rest s3 move_idx r.1
    else sbmGo depth rest s3 best_move best_score

/-- `fn search_best_move(state, depth, pv_move) -> (usize, i32)`.  The Rust
initial fallback `moves[0]` panics on an empty candidate list; that panic is
modelled by returning `none`. -/
def search_best_move {n : Nat} (s : MinimaxState n) (depth : Nat) (pv_move : Option (Fin n)) :
    Option (Fin n × Int) × MinimaxState n :=
  let moves := moveOrder s.available_cells pv_move
  match moves with
  | [] => (none, s)
  | m0 :: _ => let r := sbmGo (depth - 1) moves s m0 (-INFINITY); (some r.1, r.2)

/-- The `for depth in 1..=100` loop of `iterative_deepening_search`.
`remaining` counts the iterations left, `tick` indexes the successive
`start_time.elapsed()` readings, supplied by the abstract monotone-free
`clock : Nat → Nat` (milliseconds); `clock tick ≥ limit` models
`start_time.elapsed() >= time_limit`. -/
def idsGo {n : Nat} (limit : Nat) (clock : Nat → Nat) :
    Nat → Nat → Nat → MinimaxState n → Fin n → Option (Fin n) → Option (Fin n) × MinimaxState n
  | 0, _, _, s, best_move, _ => (some best_move, s)
  | remaining + 1, depth, tick, s, best_move, pv_move =>
    if limit ≤ clock tick then (some best_move, s)
    else
      match search_best_move s depth pv_move with
      | (none, s1) => (none, s1)
      | (some mv, s1) =>
        if WIN_SCORE - 100 ≤ mv.2 then (some mv.1, s1)
        else if limit ≤ clock (tick + 1) then (some mv.1, s1)
        else idsGo limit clock remaining (depth + 1) (tick + 2) s1 mv.1 (some mv.1)

/-- `fn iterative_deepening_search(state, max_time_ms) -> usize`.  The initial
fallback `state.available_cells().next().expect("No available moves")` panic
is modelled by returning `none`.  Wall-clock readings are abstracted by
`clock` (see `idsGo`). -/
def iterative_deepening_search {n : Nat} (s : MinimaxState n) (max_time_ms : Nat)
    (clock : Nat → Nat) : Option (Fin n) × MinimaxState n :=
  match s.available_cells with
  | [] => (none, s)
  | m0 :: _ => idsGo max_time_ms clock 100 1 0 s m0 none

/-- Modelled from the spec: `game::other_player` (not under `src/`) — the
other of the two player identities 0 and 1. -/
def other_player (p : Nat) : Nat := 1 - p

/-- Modelled from the spec: the external game-state provider consumed by the
engine (`GameY`, `Coordinates`, `PlayerId` are not under `src/`).  Per the
spec's external-interface section it supplies: the board-size parameter,
per-index validity and coordinate decoding, a neighbour query, the current
owners of occupied cells, the available-cell set, and the player to move next
(or `none` when the game has ended).  Cells are identified by their linear
index `Fin n` (`n = total_cells`); player identities by `Nat` ids. -/
structure GameModel (n : Nat) where
  size : Nat
  next_player : Option Nat
  valid : Fin n → Bool
  neighbors : Fin n → List (Fin n)
  touches_side_a : Fin n → Bool
  touches_side_b : Fin n → Bool
  touches_side_c : Fin n → Bool
  coords : Fin n → Int × Int × Int
  owners : Fin n → Option Nat
  available : List (Fin n)

/-- `MinimaxState::new(game, bot_player)`: cache coordinates for every index;
for valid cells cache the valid neighbours and the edge-flag bits; copy the
owner array (owner ids offset by one) and populate the availability mask from
`game.available_cells()`. -/
def MinimaxState.new {n : Nat} (game : GameModel n) (bot_player : Nat) : MinimaxState n where
  board := fun idx => match game.owners idx with
    | some o => o + 1
    | none => 0
  size := game.size
  available_mask := fun idx => game.available.contains idx
  coords_cache := game.coords
  neighbors_cache := fun idx =>
    if game.valid idx then (game.neighbors idx).filter (fun j => game.valid j) else []
  edges_cache := fun idx =>
    if game.valid idx then
      (if game.touches_side_a idx then 1 else 0) |||
      (if game.touches_side_b idx then 2 else 0) |||
      (if game.touches_side_c idx then 4 else 0)
    else 0
  bot_id := bot_player + 1
  human_id := other_player bot_player + 1
  visited := ∅
  stack := []

/-- `fn choose_move(&self, game: &GameY) -> Option<Coordinates>` of
`MinimaxBot` (`max_time_ms` is the bot's configuration field; `clock` the
abstract wall clock).  `Except.error` models the panic of
`iterative_deepening_search` on an empty available set; `Except.ok none` is
the normal game-over return. -/
def choose_move {n : Nat} (game : GameModel n) (max_time_ms : Nat) (clock : Nat → Nat) :
    Except String (Option (Fin n)) :=
  match game.next_player with
  | none => .ok none
  | some bot_player =>
    let state := MinimaxState.new game bot_player
    match greedy_search state with
    | (some coordinates, _) => .ok (some coordinates)
    | (none, s1) =>
      match iterative_deepening_search s1 max_time_ms clock with
      | (some best_move, _) => .ok (some best_move)
      | (none, _) => .error "No available moves"

/-! ### Value-level counterparts and specification-side definitions -/

/-- The boolean value of `check_win` alone (the scratch-buffer updates
discarded). -/
def checkWinVal {n : Nat} (s : MinimaxState n) (player : Nat) : Bool :=
  (s.check_win player).1

/-- The value of a cell-placement test used by the tactical scanner: placing
the bot's piece at `c` makes `check_win` report a win for the bot. -/
def botWinsAt {n : Nat} (s : MinimaxState n) (c : Fin n) : Prop :=
  checkWinVal (s.make_move c s.bot_id) s.bot_id = true

/-- Placing the opponent's piece at `c` makes `check_win` report a win for
the opponent (so `c` is a forced block). -/
def oppWinsAt {n : Nat} (s : MinimaxState n) (c : Fin n) : Prop :=
  checkWinVal (s.make_move c s.human_id) s.human_id = true

/-- `c` is a tactical cell: an instant win for the bot or a forced block. -/
def tacticalAt {n : Nat} (s : MinimaxState n) (c : Fin n) : Prop :=
  botWinsAt s c ∨ oppWinsAt s c

/-- The integer value of `evaluate_state` alone. -/
def evalVal {n : Nat} (s : MinimaxState n) : Int :=
  if checkWinVal s s.bot_id then WIN_SCORE
  else if checkWinVal s s.human_id then LOSE_SCORE
  else evaluate_position_strength s s.bot_id - evaluate_position_strength s s.human_id

/-- Value-level maximizing alpha-beta fold (proof counterpart of `mmGoMax`). -/
def abFoldMax {n : Nat} (child : Fin n → Int → Int → Int) :
    List (Fin n) → Int → Int → Int → Int
  | [], best, _, _ => best
  | m :: rest, best, alpha, beta =>
    let score := child m alpha beta
    let best1 := max best score
    let alpha1 := max alpha score
    if beta ≤ alpha1 then best1 else abFoldMax child rest best1 alpha1 beta

/-- Value-level minimizing alpha-beta fold (proof counterpart of `mmGoMin`). -/
def abFoldMin {n : Nat} (child : Fin n → Int → Int → Int) :
    List (Fin n) → Int → Int → Int → Int
  | [], worst, _, _ => worst
  | m :: rest, worst, alpha, beta =>
    let score := child m alpha beta
    let worst1 := min worst score
    let beta1 := min beta score
    if beta1 ≤ alpha then worst1 else abFoldMin child rest worst1 alpha beta1

/-- The value computed by `minimax`, as a pure recursion on immutable states
(children are searched on `make_move`-copies instead of make/undo threading).
`minimax_fst_eq_mval` proves it equal to the value component of `minimax`. -/
def mval {n : Nat} : Nat → MinimaxState n → Int → Int → Bool → Int
  | 0, s, _, _, _ => evalVal s
  | depth + 1, s, alpha, beta, maximizing_player =>
    if maximizing_player then
      abFoldMax (fun m a b => mval depth (s.make_move m s.bot_id) a b false)
        s.available_cells (-INFINITY) alpha beta
    else
      abFoldMin (fun m a b => mval depth (s.make_move m s.human_id) a b true)
        s.available_cells INFINITY alpha beta

/-- Running maximum of child values (exhaustive fold, no pruning). -/
def plainFoldMax {n : Nat} (pv : Fin n → Int) : List (Fin n) → Int → Int
  | [], best => best
  | m :: rest, best => plainFoldMax pv rest (max best (pv m))

/-- Running minimum of child values (exhaustive fold, no pruning). -/
def plainFoldMin {n : Nat} (pv : Fin n → Int) : List (Fin n) → Int → Int
  | [], worst => worst
  | m :: rest, worst => plainFoldMin pv rest (min worst (pv m))

/-- Specification-side exhaustive minimax *without* alpha-beta pruning: at
depth 0 the static evaluation, otherwise the maximum (resp. minimum) of the
recursive values over every available cell, from the same `-INFINITY` /
`INFINITY` starting accumulators as the code. -/
def plainVal {n : Nat} : Nat → MinimaxState n → Bool → Int
  | 0, s, _ => evalVal s
  | depth + 1, s, true =>
    plainFoldMax (fun m => plainVal depth (s.make_move m s.bot_id) false)
      s.available_cells (-INFINITY)
  | depth + 1, s, false =>
    plainFoldMin (fun m => plainVal depth (s.make_move m s.human_id) true)
      s.available_cells INFINITY

/-- Equality of everything except the scratch buffers: the board, the
availability mask, the immutable caches and the player ids. -/
def CoreEq {n : Nat} (s t : MinimaxState n) : Prop :=
  s.board = t.board ∧ s.available_mask = t.available_mask ∧
  s.neighbors_cache = t.neighbors_cache ∧ s.edges_cache = t.edges_cache ∧
  s.coords_cache = t.coords_cache ∧ s.bot_id = t.bot_id ∧
  s.human_id = t.human_id ∧ s.size = t.size

/-- The snapshot invariant: the availability bit of a cell is set exactly when
the cell is empty. -/
def MaskInv {n : Nat} (s : MinimaxState n) : Prop :=
  ∀ c, s.available_mask c = true ↔ s.board c = 0

/-- One adjacency step inside `player`'s stones: both endpoints owned by
`player` and `y` a cached neighbour of `x`. -/
def adjStep {n : Nat} (s : MinimaxState n) (player : Nat) (x y : Fin n) : Prop :=
  s.board x = player ∧ s.board y = player ∧ y ∈ s.neighbors_cache x

/-- `y` lies in the connected component (under the cached adjacency,
restricted to `player`'s stones) of `x`. -/
def Reaches {n : Nat} (s : MinimaxState n) (player : Nat) (x y : Fin n) : Prop :=
  Relation.ReflTransGen (adjStep s player) x y

/-- Specification-side win condition: some connected component of `player`'s
stones touches all three board edges — i.e. there is a stone `c` of `player`
such that each of the three edge bits is carried by some cell of `c`'s
component.  (For 3-bit edge flags this says exactly that the union of the
component's edge flags is `0b111`.) -/
def WinSpec {n : Nat} (s : MinimaxState n) (player : Nat) : Prop :=
  ∃ c, s.board c = player ∧
    (∃ a, Reaches s player c a ∧ (s.edges_cache a).testBit 0) ∧
    (∃ a, Reaches s player c a ∧ (s.edges_cache a).testBit 1) ∧
    (∃ a, Reaches s player c a ∧ (s.edges_cache a).testBit 2)

/-- Parametric form of `adjStep`, used by the DFS-correctness development. -/
def stepRel {n : Nat} (board : Fin n → Nat) (nbrs : Fin n → List (Fin n)) (player : Nat)
    (x y : Fin n) : Prop :=
  board x = player ∧ board y = player ∧ y ∈ nbrs x

/-- Parametric form of `Reaches`. -/
def ReachesVia {n : Nat} (board : Fin n → Nat) (nbrs : Fin n → List (Fin n)) (player : Nat) :
    Fin n → Fin n → Prop :=
  Relation.ReflTransGen (stepRel board nbrs player)

/-- The component of `c` carries all three edge bits (parametric form). -/
def AllBitsVia {n : Nat} (board edges : Fin n → Nat) (nbrs : Fin n → List (Fin n))
    (player : Nat) (c : Fin n) : Prop :=
  (∃ a, ReachesVia board nbrs player c a ∧ (edges a).testBit 0 = true) ∧
  (∃ a, ReachesVia board nbrs player c a ∧ (edges a).testBit 1 = true) ∧
  (∃ a, ReachesVia board nbrs player c a ∧ (edges a).testBit 2 = true)

/-- Edge flags are 3-bit masks (true of every snapshot built by
`MinimaxState.new`, see `new_edges_lt`). -/
def EdgesWF {n : Nat} (s : MinimaxState n) : Prop :=
  ∀ i, s.edges_cache i < 8

/-- The cached adjacency is symmetric (true of the geometric neighbour
relation the external game supplies). -/
def SymmetricAdj {n : Nat} (s : MinimaxState n) : Prop :=
  ∀ i j, j ∈ s.neighbors_cache i → i ∈ s.neighbors_cache j

/-- Total cached neighbour-list length, an upper bound for the connection
count of `evaluate_position_strength`. -/
def connSum {n : Nat} (s : MinimaxState n) : Int :=
  ((List.finRange n).map (fun i => ((s.neighbors_cache i).length : Int))).sum

/-- Bound for the per-cell centre-control contributions. -/
def centerSum {n : Nat} (s : MinimaxState n) : Int :=
  ((List.finRange n).map (fun i => 50 + |off_center s i|)).sum

/-- A bound on `|evaluate_position_strength|`, computed from the immutable
caches only (hence invariant under make/undo). -/
def psBound {n : Nat} (s : MinimaxState n) : Int :=
  40 * n + 40 + 25 * connSum s + 5 * n * centerSum s

/-- A bound on `|evaluate_state|` over every position reachable by play on
the snapshot's caches. -/
def evalBound {n : Nat} (s : MinimaxState n) : Int :=
  WIN_SCORE + 2 * psBound s

/-- Modelled from the spec: the external game supplies an availability set
containing exactly the empty (unowned) cells — "`available`: … set iff
`owner[cell] == 0`". -/
def GameComplementary {n : Nat} (g : GameModel n) : Prop :=
  ∀ c, c ∈ g.available ↔ g.owners c = none

/-- The fail-soft alpha-beta relation between a pruning result `r` and the
exhaustive value `v` for a window `(a, b)`: inside the window they agree; a
fail-low result is an upper bound of `v` below `a`; a fail-high result is a
lower bound of `v` above `b`. -/
def ABRel (r v a b : Int) : Prop :=
  (v ≤ a → v ≤ r ∧ r ≤ a) ∧ (b ≤ v → b ≤ r ∧ r ≤ v) ∧ (a < v → v < b → r = v)

instance {n : Nat} (s : MinimaxState n) : Decidable (MaskInv s) :=
  inferInstanceAs (Decidable (∀ c, s.available_mask c = true ↔ s.board c = 0))

instance {n : Nat} (s : MinimaxState n) : Decidable (EdgesWF s) :=
  inferInstanceAs (Decidable (∀ i, s.edges_cache i < 8))

instance {n : Nat} (s : MinimaxState n) : Decidable (SymmetricAdj s) :=
  inferInstanceAs (Decidable (∀ i j, j ∈ s.neighbors_cache i → i ∈ s.neighbors_cache j))

instance {n : Nat} (g : GameModel n) : Decidable (GameComplementary g) :=
  inferInstanceAs (Decidable (∀ c, c ∈ g.available ↔ g.owners c = none))

instance {n : Nat} (s : MinimaxState n) (c : Fin n) : Decidable (botWinsAt s c) :=
  inferInstanceAs (Decidable (_ = true))

instance {n : Nat} (s : MinimaxState n) (c : Fin n) : Decidable (oppWinsAt s c) :=
  inferInstanceAs (Decidable (_ = true))

instance {n : Nat} (s : MinimaxState n) (c : Fin n) : Decidable (tacticalAt s c) :=
  inferInstanceAs (Decidable (botWinsAt s c ∨ oppWinsAt s c))

/-! ### Concrete example inputs used by witnesses and counterexamples -/

/-- A four-cell game position: cells 0,1 and 2,3 are the only adjacent pairs;
cells 0 and 2 touch sides A and B, cells 1 and 3 touch side C.  The opponent
(id 1) owns cell 1, the bot (id 0) owns cell 3; cells 0 and 2 are free.
Placing the opponent at 0 would win for the opponent (component {0,1}), and
placing the bot at 2 wins for the bot (component {2,3}), so cell 0 is a
forced block and cell 2 an instant win. -/
def g4 : GameModel 4 where
  size := 3
  next_player := some 0
  valid := fun _ => true
  neighbors := fun i => if i = 0 then [1] else if i = 1 then [0] else if i = 2 then [3] else [2]
  touches_side_a := fun i => decide (i = 0 ∨ i = 2)
  touches_side_b := fun i => decide (i = 0 ∨ i = 2)
  touches_side_c := fun i => decide (i = 1 ∨ i = 3)
  coords := fun _ => (0, 0, 0)
  owners := fun i => if i = 1 then some 1 else if i = 3 then some 0 else none
  available := [0, 2]

/-- The snapshot the engine builds from `g4` for bot player 0. -/
def S4 : MinimaxState 4 := MinimaxState.new g4 0

/-- A one-cell empty snapshot. -/
def E1 : MinimaxState 1 where
  board := fun _ => 0
  size := 1
  available_mask := fun _ => true
  coords_cache := fun _ => (0, 0, 0)
  neighbors_cache := fun _ => []
  edges_cache := fun _ => 0
  bot_id := 1
  human_id := 2
  visited := ∅
  stack := []

/-! ### Basic lemmas about the state operations -/

namespace MinimaxState

variable {n : Nat} {s t u : MinimaxState n}

@[simp] lemma make_move_board (c : Fin n) (p : Nat) :
    (s.make_move c p).board = Function.update s.board c p := rfl

@[simp] lemma make_move_mask (c : Fin n) (p : Nat) :
    (s.make_move c p).available_mask = Function.update s.available_mask c false := rfl

@[simp] lemma undo_move_board (c : Fin n) :
    (s.undo_move c).board = Function.update s.board c 0 := rfl

@[simp] lemma undo_move_mask (c : Fin n) :
    (s.undo_move c).available_mask = Function.update s.available_mask c true := rfl

@[simp] lemma make_move_neighbors (c : Fin n) (p : Nat) :
    (s.make_move c p).neighbors_cache = s.neighbors_cache := rfl

@[simp] lemma make_move_edges (c : Fin n) (p : Nat) :
    (s.make_move c p).edges_cache = s.edges_cache := rfl

@[simp] lemma make_move_coords (c : Fin n) (p : Nat) :
    (s.make_move c p).coords_cache = s.coords_cache := rfl

@[simp] lemma make_move_bot (c : Fin n) (p : Nat) : (s.make_move c p).bot_id = s.bot_id := rfl

@[simp] lemma make_move_human (c : Fin n) (p : Nat) :
    (s.make_move c p).human_id = s.human_id := rfl

@[simp] lemma make_move_size (c : Fin n) (p : Nat) : (s.make_move c p).size = s.size := rfl

@[simp] lemma make_move_visited (c : Fin n) (p : Nat) :
    (s.make_move c p).visited = s.visited := rfl

@[simp] lemma make_move_stack (c : Fin n) (p : Nat) : (s.make_move c p).stack = s.stack := rfl

@[simp] lemma undo_move_neighbors (c : Fin n) :
    (s.undo_move c).neighbors_cache = s.neighbors_cache := rfl

@[simp] lemma undo_move_edges (c : Fin n) : (s.undo_move c).edges_cache = s.edges_cache := rfl

@[simp] lemma undo_move_coords (c : Fin n) : (s.undo_move c).coords_cache = s.coords_cache := rfl

@[simp] lemma undo_move_bot (c : Fin n) : (s.undo_move c).bot_id = s.bot_id := rfl

@[simp] lemma undo_move_human (c : Fin n) : (s.undo_move c).human_id = s.human_id := rfl

@[simp] lemma undo_move_size (c : Fin n) : (s.undo_move c).size = s.size := rfl

@[simp] lemma undo_move_visited (c : Fin n) : (s.undo_move c).visited = s.visited := rfl

@[simp] lemma undo_move_stack (c : Fin n) : (s.undo_move c).stack = s.stack := rfl

end MinimaxState

lemma coreEq_refl {n : Nat} (s : MinimaxState n) : CoreEq s s :=
  ⟨rfl, rfl, rfl, rfl, rfl, rfl, rfl, rfl⟩

lemma coreEq_symm {n : Nat} {s t : MinimaxState n} (h : CoreEq s t) : CoreEq t s := by
  obtain ⟨h1, h2, h3, h4, h5, h6, h7, h8⟩ := h
  exact ⟨h1.symm, h2.symm, h3.symm, h4.symm, h5.symm, h6.symm, h7.symm, h8.symm⟩

lemma coreEq_trans {n : Nat} {s t u : MinimaxState n} (h : CoreEq s t) (h' : CoreEq t u) :
    CoreEq s u := by
  obtain ⟨h1, h2, h3, h4, h5, h6, h7, h8⟩ := h
  obtain ⟨g1, g2, g3, g4, g5, g6, g7, g8⟩ := h'
  exact ⟨h1.trans g1, h2.trans g2, h3.trans g3, h4.trans g4, h5.trans g5, h6.trans g6,
    h7.trans g7, h8.trans g8⟩

lemma coreEq_make {n : Nat} {s t : MinimaxState n} (h : CoreEq s t) (c : Fin n) (p : Nat) :
    CoreEq (s.make_move c p) (t.make_move c p) := by
  obtain ⟨h1, h2, h3, h4, h5, h6, h7, h8⟩ := h
  exact ⟨by simp [h1], by simp [h2], h3, h4, h5, h6, h7, h8⟩

lemma coreEq_undo {n : Nat} {s t : MinimaxState n} (h : CoreEq s t) (c : Fin n) :
    CoreEq (s.undo_move c) (t.undo_move c) := by
  obtain ⟨h1, h2, h3, h4, h5, h6, h7, h8⟩ := h
  exact ⟨by simp [h1], by simp [h2], h3, h4, h5, h6, h7, h8⟩

/-- Undoing a move on any state core-equal to `s.make_move c p` restores the
core of `s`, provided cell `c` was empty and available in `s`. -/
lemma coreEq_undo_of_make {n : Nat} {s t : MinimaxState n} {c : Fin n} {p : Nat}
    (h : CoreEq t (s.make_move c p)) (hb : s.board c = 0) (hm : s.available_mask c = true) :
    CoreEq (t.undo_move c) s := by
  obtain ⟨h1, h2, h3, h4, h5, h6, h7, h8⟩ := h
  refine ⟨?_, ?_, h3, h4, h5, h6, h7, h8⟩
  · funext d
    by_cases hd : d = c
    · subst hd; simp [hb]
    · simp [Function.update_noteq hd, h1, Function.update_noteq hd]
  · funext d
    by_cases hd : d = c
    · subst hd; simp [hm]
    · simp [Function.update_noteq hd, h2, Function.update_noteq hd]

lemma available_cells_coreEq {n : Nat} {s t : MinimaxState n} (h : CoreEq s t) :
    s.available_cells = t.available_cells := by
  unfold MinimaxState.available_cells
  rw [h.2.1]

lemma occupied_cells_coreEq {n : Nat} {s t : MinimaxState n} (h : CoreEq s t) :
    s.occupied_cells = t.occupied_cells := by
  unfold MinimaxState.occupied_cells
  rw [h.2.1]

lemma maskInv_coreEq {n : Nat} {s t : MinimaxState n} (h : CoreEq s t) (hi : MaskInv s) :
    MaskInv t := by
  intro c
  rw [← h.1, ← h.2.1]
  exact hi c

lemma maskInv_make {n : Nat} {s : MinimaxState n} (hi : MaskInv s) {p : Nat} (hp : p ≠ 0)
    (c : Fin n) : MaskInv (s.make_move c p) := by
  intro d
  by_cases hd : d = c
  · subst hd
    simp [hp]
  · simpa [Function.update_noteq hd] using hi d

lemma maskInv_undo {n : Nat} {s : MinimaxState n} (hi : MaskInv s) (c : Fin n) :
    MaskInv (s.undo_move c) := by
  intro d
  by_cases hd : d = c
  · subst hd; simp
  · simpa [Function.update_noteq hd] using hi d

/-! ### The `check_win` bridge: state threading vs. the pure loop -/

lemma checkWinLoop_eq_go {n : Nat} (player : Nat) (l : List (Fin n)) (s : MinimaxState n) :
    checkWinLoop player l s =
      ((checkWinGo s.board s.edges_cache s.neighbors_cache player l s.visited s.stack).1,
       { s with
          visited := (checkWinGo s.board s.edges_cache s.neighbors_cache player l
            s.visited s.stack).2.1,
          stack := (checkWinGo s.board s.edges_cache s.neighbors_cache player l
            s.visited s.stack).2.2 }) := by
  induction l generalizing s with
  | nil => simp [checkWinLoop, checkWinGo]
  | cons idx rest ih =>
    by_cases hc : s.board idx = player ∧ s.edges_cache idx ≠ 0 ∧ idx ∉ s.visited
    · rw [checkWinLoop, checkWinGo]
      simp only [if_pos hc, MinimaxState.dfs_collect_edges]
      by_cases h7 :
        (dfsLoop s.board s.edges_cache s.neighbors_cache player n
          (insert idx s.visited) [idx] 0).1 = 7
      · simp [h7]
      · simp only [h7, if_neg, ite_false]
        rw [ih]
    · rw [checkWinLoop, checkWinGo]
      simp only [if_neg hc]
      rw [ih]

lemma check_win_eq_go {n : Nat} (s : MinimaxState n) (player : Nat) :
    s.check_win player =
      ((checkWinGo s.board s.edges_cache s.neighbors_cache player (List.finRange n)
          ∅ s.stack).1,
       { s with
          visited := (checkWinGo s.board s.edges_cache s.neighbors_cache player
            (List.finRange n) ∅ s.stack).2.1,
          stack := (checkWinGo s.board s.edges_cache s.neighbors_cache player
            (List.finRange n) ∅ s.stack).2.2 }) := by
  unfold MinimaxState.check_win
  rw [checkWinLoop_eq_go]

/-- The boolean result and the final `visited` buffer of the `check_win` loop
do not depend on the incoming `stack` buffer (every DFS starts from a freshly
cleared stack). -/
lemma checkWinGo_stack_irrel {n : Nat} (board edges : Fin n → Nat)
    (nbrs : Fin n → List (Fin n)) (player : Nat) (l : List (Fin n)) (v : Finset (Fin n))
    (st st' : List (Fin n)) :
    (checkWinGo board edges nbrs player l v st).1 = (checkWinGo board edges nbrs player l v st').1
    ∧ (checkWinGo board edges nbrs player l v st).2.1 =
      (checkWinGo board edges nbrs player l v st').2.1 := by
  induction l generalizing v st st' with
  | nil => simp [checkWinGo]
  | cons idx rest ih =>
    by_cases hc : board idx = player ∧ edges idx ≠ 0 ∧ idx ∉ v
    · rw [checkWinGo, checkWinGo]
      simp only [if_pos hc]
      exact ⟨trivial, trivial⟩
    · rw [checkWinGo, checkWinGo]
      simp only [if_neg hc]
      exact ih _ _ _

/-- `check_win`'s boolean result is determined by the core of the state. -/
lemma checkWinVal_coreEq {n : Nat} {s t : MinimaxState n} (h : CoreEq s t) (player : Nat) :
    checkWinVal s player = checkWinVal t player := by
  unfold checkWinVal
  rw [check_win_eq_go, check_win_eq_go]
  simp only [h.1, h.2.2.2.1, h.2.2.1]
  exact (checkWinGo_stack_irrel _ _ _ _ _ _ _ _).1

/-- Frame property of `check_win`: only the scratch buffers change. -/
lemma check_win_coreEq {n : Nat} (s : MinimaxState n) (player : Nat) :
    CoreEq (s.check_win player).2 s := by
  rw [check_win_eq_go]
  exact ⟨rfl, rfl, rfl, rfl, rfl, rfl, rfl, rfl⟩

/-- A `check_win` scan for a player who owns no scanned cell reports no win. -/
lemma checkWinGo_fst_false {n : Nat} (board edges : Fin n → Nat)
    (nbrs : Fin n → List (Fin n)) (player : Nat) (l : List (Fin n)) (v : Finset (Fin n))
    (st : List (Fin n)) (h : ∀ i ∈ l, board i ≠ player) :
    (checkWinGo board edges nbrs player l v st).1 = false := by
  induction l generalizing v st with
  | nil => rfl
  | cons idx rest ih =>
    rw [checkWinGo]
    rw [if_neg (by
      rintro ⟨hb, -, -⟩
      exact h idx (List.mem_cons_self idx rest) hb)]
    exact ih _ _ (fun i hi => h i (List.mem_cons_of_mem _ hi))

lemma checkWinVal_false_of_no_owner {n : Nat} (s : MinimaxState n) (player : Nat)
    (h : ∀ i, s.board i ≠ player) : checkWinVal s player = false := by
  unfold checkWinVal
  rw [check_win_eq_go]
  exact checkWinGo_fst_false _ _ _ _ _ _ _ (fun i _ => h i)

/-- `evaluate_position_strength` only reads the core of the state. -/
lemma eps_coreEq {n : Nat} {s t : MinimaxState n} (h : CoreEq s t) (player : Nat) :
    evaluate_position_strength s player = evaluate_position_strength t player := by
  obtain ⟨h1, h2, h3, h4, h5, _, _, _⟩ := h
  unfold evaluate_position_strength ownedCells MinimaxState.occupied_cells
    same_owner_neighbors off_center
  rw [h1, h2, h3, h4, h5]

/-- A player owning no cell scores zero in `evaluate_position_strength`. -/
lemma eps_zero_of_no_owner {n : Nat} (s : MinimaxState n) (player : Nat)
    (h : ∀ i, s.board i ≠ player) : evaluate_position_strength s player = 0 := by
  have howned : ownedCells s player = [] := by
    unfold ownedCells
    exact List.filter_eq_nil_iff.2 (fun i _ => by simpa using h i)
  unfold evaluate_position_strength
  rw [howned]
  simp [countOnes8]

/-- The value of `evaluate_state` is `evalVal`, and only scratch buffers are
mutated. -/
lemma evaluate_state_fst {n : Nat} (s : MinimaxState n) :
    (evaluate_state s).1 = evalVal s ∧ CoreEq (evaluate_state s).2 s := by
  unfold evaluate_state evalVal
  have hc1 : CoreEq (s.check_win s.bot_id).2 s := check_win_coreEq s s.bot_id
  have hfst1 : (s.check_win s.bot_id).1 = checkWinVal s s.bot_id := rfl
  cases hb : (s.check_win s.bot_id).1 with
  | true => simp [← hfst1, hb, hc1]
  | false =>
    have hhid : (s.check_win s.bot_id).2.human_id = s.human_id := hc1.2.2.2.2.2.2.1
    have hfst2 : ((s.check_win s.bot_id).2.check_win (s.check_win s.bot_id).2.human_id).1
        = checkWinVal s s.human_id := by
      rw [show ((s.check_win s.bot_id).2.check_win (s.check_win s.bot_id).2.human_id).1
          = checkWinVal (s.check_win s.bot_id).2 (s.check_win s.bot_id).2.human_id from rfl,
        hhid]
      exact checkWinVal_coreEq hc1 s.human_id
    have hc2 : CoreEq ((s.check_win s.bot_id).2.check_win (s.check_win s.bot_id).2.human_id).2 s :=
      coreEq_trans (check_win_coreEq _ _) hc1
    cases hh : ((s.check_win s.bot_id).2.check_win (s.check_win s.bot_id).2.human_id).1 with
    | true => simp [← hfst1, hb, hh, hfst2.symm.trans hh, hc2]
    | false =>
      constructor
      · simp only [← hfst1, hb, hh, Bool.false_eq_true, if_false]
        rw [← hfst2, hh]
        simp only [Bool.false_eq_true, if_false]
        rw [eps_coreEq hc2 _, hc2.2.2.2.2.2.1, hc2.2.2.2.2.2.2.1,
          eps_coreEq hc2 _]
      · simp only [hb, hh, Bool.false_eq_true, if_false]
        exact hc2

/-- The snapshot built by `MinimaxState.new` satisfies the complementarity
invariant whenever the external game supplies an availability set equal to
the unowned cells. -/
lemma maskInv_new {n : Nat} (g : GameModel n) (bot_player : Nat) (h : GameComplementary g) :
    MaskInv (MinimaxState.new g bot_player) := by
  intro c
  have hmem : ((MinimaxState.new g bot_player).available_mask c = true) ↔ g.owners c = none := by
    show (g.available.contains c = true) ↔ _
    rw [List.elem_iff]
    exact h c
  rw [hmem]
  show _ ↔ (match g.owners c with | some o => o + 1 | none => 0) = 0
  cases ho : g.owners c with
  | none => simp [ho]
  | some o => simp [ho]

/-! ### Claim theorems and witnesses (C5, C6, C7, C10) -/

/-- Claim C5 — Move invertibility: for every cell `c` that is available (and
hence, by the snapshot invariant, empty) and every player `p`, applying
`make_move c p` and then `undo_move c` returns a state equal to the original
in every field — in particular the owner array and the availability
bit-vector are restored and no other cell is touched. -/
theorem make_undo_inverse {n : Nat} (s : MinimaxState n) (c : Fin n) (p : Nat)
    (hi : MaskInv s) (hm : s.available_mask c = true) :
    (s.make_move c p).undo_move c = s := by
  have hb : s.board c = 0 := (hi c).1 hm
  have hboard : ((s.make_move c p).undo_move c).board = s.board := by
    funext d
    by_cases hd : d = c
    · subst hd; simp [hb]
    · simp [Function.update_noteq hd]
  have hmask : ((s.make_move c p).undo_move c).available_mask = s.available_mask := by
    funext d
    by_cases hd : d = c
    · subst hd; simp [hm]
    · simp [Function.update_noteq hd]
  exact MinimaxState.ext hboard rfl hmask rfl rfl rfl rfl rfl rfl rfl

/-- Witness for C5 on the concrete snapshot `S4` at cell 0. -/
theorem make_undo_inverse_witness :
    (MaskInv S4 ∧ S4.available_mask 0 = true) ∧ (S4.make_move 0 S4.bot_id).undo_move 0 = S4 :=
  ⟨⟨by decide, by decide⟩, make_undo_inverse S4 0 S4.bot_id (by decide) (by decide)⟩

/-- Claim C6 — Mutual exclusivity invariant: the complementarity
`available[c] = (owner[c] == 0)` holds on the snapshot `MinimaxState.new`
constructs (given that the external game supplies the empty cells as its
available set, which is how the spec describes the game's interface), and it
is preserved by `make_move` with any nonzero player id (the engine only ever
places `bot_id`/`human_id`, both nonzero) and by `undo_move` — hence it holds
before and after every make/undo pair. -/
theorem mask_complement_invariant {n : Nat} :
    (∀ (g : GameModel n) (bot_player : Nat), GameComplementary g →
      MaskInv (MinimaxState.new g bot_player))
    ∧ (∀ (s : MinimaxState n) (c : Fin n) (p : Nat), p ≠ 0 → MaskInv s →
      MaskInv (s.make_move c p))
    ∧ (∀ (s : MinimaxState n) (c : Fin n), MaskInv s → MaskInv (s.undo_move c)) :=
  ⟨fun g b h => maskInv_new g b h,
   fun s c p hp hi => maskInv_make hi hp c,
   fun s c hi => maskInv_undo hi c⟩

/-- Witness for C6 on the concrete game `g4`: its snapshot satisfies the
invariant, and a make/undo pair at cell 0 preserves it. -/
theorem mask_complement_invariant_witness :
    (GameComplementary g4 ∧ S4.bot_id ≠ 0) ∧
      (MaskInv S4 ∧ MaskInv (S4.make_move 0 S4.bot_id) ∧
        MaskInv ((S4.make_move 0 S4.bot_id).undo_move 0)) :=
  ⟨⟨by decide, by decide⟩,
    (mask_complement_invariant (n := 4)).1 g4 0 (by decide),
    (mask_complement_invariant (n := 4)).2.1 S4 0 S4.bot_id (by decide)
      ((mask_complement_invariant (n := 4)).1 g4 0 (by decide)),
    (mask_complement_invariant (n := 4)).2.2 (S4.make_move 0 S4.bot_id) 0
      ((mask_complement_invariant (n := 4)).2.1 S4 0 S4.bot_id (by decide)
        ((mask_complement_invariant (n := 4)).1 g4 0 (by decide)))⟩

/-- Claim C7 — Evaluation symmetry on the empty board: on a snapshot where no
cell is owned by either player (and with the nonzero player ids every
snapshot is built with), `evaluate_state` returns exactly 0. -/
theorem evaluate_empty_zero {n : Nat} (s : MinimaxState n) (hb : ∀ c, s.board c = 0)
    (hbot : s.bot_id ≠ 0) (hhum : s.human_id ≠ 0) : (evaluate_state s).1 = 0 := by
  have hnb : ∀ i, s.board i ≠ s.bot_id := fun i => by rw [hb i]; exact fun h => hbot h.symm
  have hnh : ∀ i, s.board i ≠ s.human_id := fun i => by rw [hb i]; exact fun h => hhum h.symm
  rw [(evaluate_state_fst s).1]
  unfold evalVal
  rw [checkWinVal_false_of_no_owner s _ hnb, checkWinVal_false_of_no_owner s _ hnh]
  simp only [Bool.false_eq_true, if_false]
  rw [eps_zero_of_no_owner s _ hnb, eps_zero_of_no_owner s _ hnh]
  simp

/-- Witness for C7 on the one-cell empty snapshot `E1`. -/
theorem evaluate_empty_zero_witness :
    ((∀ c, E1.board c = 0) ∧ E1.bot_id ≠ 0 ∧ E1.human_id ≠ 0) ∧ (evaluate_state E1).1 = 0 :=
  ⟨⟨by decide, by decide, by decide⟩,
   evaluate_empty_zero E1 (by decide) (by decide) (by decide)⟩

/-- Claim C10 — Connectivity check is read-only on the board: `check_win`
(and its inner `dfs_collect_edges`) leave the owner array, the availability
bit-vector — indeed every field other than the `visited`/`stack` scratch
buffers — unchanged. -/
theorem check_win_readonly {n : Nat} (s : MinimaxState n) (player : Nat) (start : Fin n) :
    CoreEq (s.check_win player).2 s ∧ CoreEq (s.dfs_collect_edges start player).2 s :=
  ⟨check_win_coreEq s player, ⟨rfl, rfl, rfl, rfl, rfl, rfl, rfl, rfl⟩⟩

/-! ### The tactical scanner -/

/-- Full behaviour of the `greedy_search` loop, relative to an original
snapshot `s0`: either no scanned cell is tactical and the snapshot core is
fully restored, or the list splits at the first tactical cell `c`, the loop
returns `c`, and the final state is the snapshot with the tentative piece
still on `c` (the bot's piece if `c` is an instant win, otherwise the
opponent's). -/
lemma greedyGo_spec {n : Nat} (s0 : MinimaxState n) (hi : MaskInv s0) :
    ∀ (l : List (Fin n)) (t : MinimaxState n), CoreEq t s0 →
      (∀ m ∈ l, s0.available_mask m = true) →
      ((greedyGo t l).1 = none ∧ CoreEq (greedyGo t l).2 s0 ∧ ∀ m ∈ l, ¬ tacticalAt s0 m)
      ∨ (∃ l1 c l2, l = l1 ++ c :: l2 ∧ (∀ m ∈ l1, ¬ tacticalAt s0 m) ∧ tacticalAt s0 c ∧
          (greedyGo t l).1 = some c ∧
          ((botWinsAt s0 c ∧ CoreEq (greedyGo t l).2 (s0.make_move c s0.bot_id))
            ∨ (¬ botWinsAt s0 c ∧ oppWinsAt s0 c ∧
              CoreEq (greedyGo t l).2 (s0.make_move c s0.human_id)))) := by
  intro l
  induction l with
  | nil =>
    intro t ht _
    exact Or.inl ⟨rfl, ht, by simp⟩
  | cons m rest ih =>
    intro t ht hav
    have havm : s0.available_mask m = true := hav m (List.mem_cons_self m rest)
    have hbm : s0.board m = 0 := (hi m).1 havm
    have hbotid : t.bot_id = s0.bot_id := ht.2.2.2.2.2.1
    dsimp only [greedyGo]
    set s1 := t.make_move m t.bot_id with hs1def
    set r1 := s1.check_win s1.bot_id with hr1def
    have hs1 : CoreEq s1 (s0.make_move m s0.bot_id) := by
      rw [hs1def, hbotid]
      exact coreEq_make ht m s0.bot_id
    have hr1val : r1.1 = checkWinVal (s0.make_move m s0.bot_id) s0.bot_id := by
      have hpl : s1.bot_id = s0.bot_id := by rw [hs1def, MinimaxState.make_move_bot, hbotid]
      show checkWinVal s1 s1.bot_id = _
      rw [hpl]
      exact checkWinVal_coreEq hs1 s0.bot_id
    have hc1 : CoreEq r1.2 (s0.make_move m s0.bot_id) :=
      coreEq_trans (check_win_coreEq _ _) hs1
    cases hb1 : r1.1 with
    | true =>
      have hwin : botWinsAt s0 m := by
        unfold botWinsAt
        rw [← hr1val, hb1]
      refine Or.inr ⟨[], m, rest, rfl, by simp, Or.inl hwin, by simp [hb1], Or.inl ⟨hwin, ?_⟩⟩
      simp only [hb1, if_true]
      exact hc1
    | false =>
      have hnwin : ¬ botWinsAt s0 m := by
        unfold botWinsAt
        rw [← hr1val, hb1]
        simp
      simp only [hb1, Bool.false_eq_true, if_false]
      set s2 := r1.2.undo_move m with hs2def
      have hs2 : CoreEq s2 s0 := coreEq_undo_of_make hc1 hbm havm
      set s3 := s2.make_move m s2.human_id with hs3def
      have hs3 : CoreEq s3 (s0.make_move m s0.human_id) := by
        rw [hs3def, show s2.human_id = s0.human_id from hs2.2.2.2.2.2.2.1]
        exact coreEq_make hs2 m s0.human_id
      set r2 := s3.check_win s3.human_id with hr2def
      have hr2val : r2.1 = checkWinVal (s0.make_move m s0.human_id) s0.human_id := by
        have hpl : s3.human_id = s0.human_id := by
          rw [hs3def, MinimaxState.make_move_human]
          exact hs2.2.2.2.2.2.2.1
        show checkWinVal s3 s3.human_id = _
        rw [hpl]
        exact checkWinVal_coreEq hs3 s0.human_id
      have hc2 : CoreEq r2.2 (s0.make_move m s0.human_id) :=
        coreEq_trans (check_win_coreEq _ _) hs3
      cases hb2 : r2.1 with
      | true =>
        have hblock : oppWinsAt s0 m := by
          unfold oppWinsAt
          rw [← hr2val, hb2]
        refine Or.inr ⟨[], m, rest, rfl, by simp, Or.inr hblock, by simp [hb2],
          Or.inr ⟨hnwin, hblock, ?_⟩⟩
        simp only [hb2, if_true]
        exact hc2
      | false =>
        have hnblock : ¬ oppWinsAt s0 m := by
          unfold oppWinsAt
          rw [← hr2val, hb2]
          simp
        have hnt : ¬ tacticalAt s0 m := by
          rintro (h | h)
          · exact hnwin h
          · exact hnblock h
        simp only [hb2, Bool.false_eq_true, if_false]
        have hback : CoreEq (r2.2.undo_move m) s0 := coreEq_undo_of_make hc2 hbm havm
        rcases ih (r2.2.undo_move m) hback (fun x hx => hav x (List.mem_cons_of_mem _ hx)) with
          ⟨hn, hcore, hall⟩ | ⟨l1, c, l2, heq, hl1, htac, hres, hfin⟩
        · refine Or.inl ⟨hn, hcore, ?_⟩
          intro x hx
          rcases List.mem_cons.1 hx with hx | hx
          · subst hx; exact hnt
          · exact hall x hx
        · refine Or.inr ⟨m :: l1, c, l2, by rw [heq]; rfl, ?_, htac, hres, hfin⟩
          intro x hx
          rcases List.mem_cons.1 hx with hx | hx
          · subst hx; exact hnt
          · exact hl1 x hx

lemma greedy_search_eq {n : Nat} (s : MinimaxState n) :
    greedy_search s = greedyGo s s.available_cells := rfl

lemma mem_available_mask {n : Nat} {s : MinimaxState n} {m : Fin n}
    (hm : m ∈ s.available_cells) : s.available_mask m = true := by
  have := (List.mem_filter.1 hm).2
  simpa using this

lemma available_cells_sorted {n : Nat} (s : MinimaxState n) :
    List.Pairwise (· < ·) s.available_cells :=
  List.Pairwise.filter _ (List.pairwise_lt_finRange n)

/-- Claim C1 (amended) — Tactical precedence with scan order: if any available
cell is tactical (an instant bot win or a forced block), `greedy_search`
returns the *first* such cell in index order, and `choose_move` returns that
cell without consulting the deep search; in particular, when no available
cell is an instant bot win but some cell is a forced block, the returned cell
denies the opponent's win, and when no cell is tactical the scanner falls
through.  (The unamended claim — a winning cell is returned whenever one
exists — fails when an earlier cell is a forced block; see the
counterexample.) -/
theorem greedy_tactical_precedence {n : Nat} (s : MinimaxState n) (hi : MaskInv s) :
    ((∃ c ∈ s.available_cells, tacticalAt s c) →
      ∃ c, (greedy_search s).1 = some c ∧ c ∈ s.available_cells ∧ tacticalAt s c ∧
        ∀ c' ∈ s.available_cells, c' < c → ¬ tacticalAt s c')
    ∧ ((∀ c ∈ s.available_cells, ¬ botWinsAt s c) →
        ∀ c, (greedy_search s).1 = some c → oppWinsAt s c)
    ∧ ((∀ c ∈ s.available_cells, ¬ tacticalAt s c) → (greedy_search s).1 = none)
    ∧ (∀ (g : GameModel n) (p limit : Nat) (clock : Nat → Nat) (c : Fin n),
        g.next_player = some p → (greedy_search (MinimaxState.new g p)).1 = some c →
        choose_move g limit clock = Except.ok (some c)) := by
  have hspec := greedyGo_spec s hi s.available_cells s (coreEq_refl s)
    (fun m hm => mem_available_mask hm)
  rw [← greedy_search_eq] at hspec
  refine ⟨?_, ?_, ?_, ?_⟩
  · rintro ⟨c0, hc0, htc0⟩
    rcases hspec with ⟨-, -, hall⟩ | ⟨l1, c, l2, heq, hl1, htac, hres, -⟩
    · exact absurd htc0 (hall c0 hc0)
    · refine ⟨c, hres, ?_, htac, ?_⟩
      · rw [heq]
        exact List.mem_append_right l1 (List.mem_cons_self c l2)
      · intro x hx hlt
        have hp := available_cells_sorted s
        rw [heq] at hp hx
        rcases List.mem_append.1 hx with hx | hx
        · exact hl1 x hx
        · rcases List.mem_cons.1 hx with hx | hx
          · subst hx; exact absurd hlt (lt_irrefl x)
          · have : c < x := List.rel_of_pairwise_cons (List.pairwise_append.1 hp).2.1 hx
            exact absurd hlt (not_lt_of_gt this)
  · intro hnb c hc
    rcases hspec with ⟨hnone, -, -⟩ | ⟨l1, c0, l2, heq, -, -, hres, hfin⟩
    · rw [hnone] at hc; exact absurd hc (by simp)
    · rw [hres] at hc
      have hcc : c0 = c := by simpa using hc
      subst hcc
      have hc0mem : c0 ∈ s.available_cells := by
        rw [heq]
        exact List.mem_append_right l1 (List.mem_cons_self c0 l2)
      rcases hfin with ⟨hb, -⟩ | ⟨-, ho, -⟩
      · exact absurd hb (hnb c0 hc0mem)
      · exact ho
  · intro hnt
    rcases hspec with ⟨hnone, -, -⟩ | ⟨l1, c, l2, heq, -, htac, -, -⟩
    · exact hnone
    · have : c ∈ s.available_cells := by
        rw [heq]
        exact List.mem_append_right l1 (List.mem_cons_self c l2)
      exact absurd htac (hnt c this)
  · intro g p limit clock c hnp hres
    rcases hg : greedy_search (MinimaxState.new g p) with ⟨o, st⟩
    rw [hg] at hres
    simp only at hres
    subst hres
    unfold choose_move
    rw [hnp]
    dsimp only
    rw [hg]

/-- Counterexample to C1 as stated: on the snapshot built from `g4`, cell 2
is an available instant win for the bot, yet the engine returns cell 0 (the
earlier forced block), and placing the bot at cell 0 is not a win. -/
theorem greedy_tactical_precedence_cex :
    ((2 : Fin 4) ∈ S4.available_cells ∧ botWinsAt S4 2) ∧
      choose_move g4 0 (fun _ => 0) = Except.ok (some 0) ∧
      (greedy_search S4).1 = some 0 ∧ ¬ botWinsAt S4 0 := by
  refine ⟨⟨by decide, by decide⟩, by rfl, by decide, by decide⟩

/-- Witness for C1 (amended) on the snapshot `S4`. -/
theorem greedy_tactical_precedence_witness :
    MaskInv S4 ∧
      (((∃ c ∈ S4.available_cells, tacticalAt S4 c) →
        ∃ c, (greedy_search S4).1 = some c ∧ c ∈ S4.available_cells ∧ tacticalAt S4 c ∧
          ∀ c' ∈ S4.available_cells, c' < c → ¬ tacticalAt S4 c')
      ∧ ((∀ c ∈ S4.available_cells, ¬ botWinsAt S4 c) →
          ∀ c, (greedy_search S4).1 = some c → oppWinsAt S4 c)
      ∧ ((∀ c ∈ S4.available_cells, ¬ tacticalAt S4 c) → (greedy_search S4).1 = none)
      ∧ (∀ (g : GameModel 4) (p limit : Nat) (clock : Nat → Nat) (c : Fin 4),
          g.next_player = some p → (greedy_search (MinimaxState.new g p)).1 = some c →
          choose_move g limit clock = Except.ok (some c))) :=
  ⟨by decide, greedy_tactical_precedence S4 (by decide)⟩

/-- Claim C4 (amended) — Tactical scan frame: when `greedy_search` returns
`none`, the owner array and the availability mask are fully restored; when it
returns a tactical cell `c`, every cell other than `c` is restored, but `c`
itself still holds the tentatively placed piece (the bot's or the opponent's)
and its availability bit is cleared.  (The unamended claim — full restoration
in both cases — fails on the tactical return paths, which do not undo; see
the counterexample.) -/
theorem greedy_restore_frame {n : Nat} (s : MinimaxState n) (hi : MaskInv s) :
    ((greedy_search s).1 = none →
      (greedy_search s).2.board = s.board ∧
      (greedy_search s).2.available_mask = s.available_mask)
    ∧ (∀ c, (greedy_search s).1 = some c →
        (∀ d, d ≠ c → (greedy_search s).2.board d = s.board d ∧
          (greedy_search s).2.available_mask d = s.available_mask d)
        ∧ (greedy_search s).2.available_mask c = false
        ∧ ((greedy_search s).2.board c = s.bot_id ∨ (greedy_search s).2.board c = s.human_id)) := by
  have hspec := greedyGo_spec s hi s.available_cells s (coreEq_refl s)
    (fun m hm => mem_available_mask hm)
  rw [← greedy_search_eq] at hspec
  constructor
  · intro hnone
    rcases hspec with ⟨-, hcore, -⟩ | ⟨l1, c, l2, -, -, -, hres, -⟩
    · exact ⟨hcore.1, hcore.2.1⟩
    · rw [hres] at hnone; exact absurd hnone (by simp)
  · intro c hc
    rcases hspec with ⟨hnone, -, -⟩ | ⟨l1, c0, l2, -, -, -, hres, hfin⟩
    · rw [hnone] at hc; exact absurd hc (by simp)
    · rw [hres] at hc
      have hcc : c0 = c := by simpa using hc
      subst hcc
      have key : ∀ p : Nat, CoreEq (greedy_search s).2 (s.make_move c0 p) →
          (∀ d, d ≠ c0 → (greedy_search s).2.board d = s.board d ∧
            (greedy_search s).2.available_mask d = s.available_mask d)
          ∧ (greedy_search s).2.available_mask c0 = false
          ∧ (greedy_search s).2.board c0 = p := by
        intro p hcore
        refine ⟨?_, ?_, ?_⟩
        · intro d hd
          rw [hcore.1, hcore.2.1]
          simp [Function.update_noteq hd]
        · rw [hcore.2.1]; simp
        · rw [hcore.1]; simp
      rcases hfin with ⟨-, hcore⟩ | ⟨-, -, hcore⟩
      · rcases key s.bot_id hcore with ⟨h1, h2, h3⟩
        exact ⟨h1, h2, Or.inl h3⟩
      · rcases key s.human_id hcore with ⟨h1, h2, h3⟩
        exact ⟨h1, h2, Or.inr h3⟩

/-- Counterexample to C4 as stated: `greedy_search` on `S4` returns the
forced block at cell 0 and leaves the opponent's tentative piece there —
cell 0's owner entry and availability bit differ from their pre-scan values. -/
theorem greedy_restore_frame_cex :
    (greedy_search S4).1 = some 0 ∧ (greedy_search S4).2.board 0 = 2 ∧ S4.board 0 = 0 ∧
      (greedy_search S4).2.available_mask 0 = false ∧ S4.available_mask 0 = true := by
  refine ⟨by decide, by decide, by decide, by decide, by decide⟩

/-- Witness for C4 (amended) on the snapshot `S4`. -/
theorem greedy_restore_frame_witness :
    MaskInv S4 ∧
      (((greedy_search S4).1 = none →
        (greedy_search S4).2.board = S4.board ∧
        (greedy_search S4).2.available_mask = S4.available_mask)
      ∧ (∀ c, (greedy_search S4).1 = some c →
          (∀ d, d ≠ c → (greedy_search S4).2.board d = S4.board d ∧
            (greedy_search S4).2.available_mask d = S4.available_mask d)
          ∧ (greedy_search S4).2.available_mask c = false
          ∧ ((greedy_search S4).2.board c = S4.bot_id ∨
              (greedy_search S4).2.board c = S4.human_id))) :=
  ⟨by decide, greedy_restore_frame S4 (by decide)⟩

/-! ### DFS correctness (claim C2) -/

section DFSCorrect

variable {n : Nat} (board edges : Fin n → Nat) (nbrs : Fin n → List (Fin n)) (player : Nat)

lemma pushNbrs_subset : ∀ (l : List (Fin n)) (v : Finset (Fin n)) (st : List (Fin n)),
    v ⊆ (pushNbrs board player v st l).1 := by
  intro l
  induction l with
  | nil => intro v st; exact fun x hx => hx
  | cons nb rest ih =>
    intro v st
    rw [pushNbrs]
    by_cases h : board nb = player ∧ nb ∉ v
    · rw [if_pos h]
      exact fun x hx => ih (insert nb v) (nb :: st) (Finset.mem_insert_of_mem hx)
    · rw [if_neg h]
      exact ih v st

lemma pushNbrs_measure : ∀ (l : List (Fin n)) (v : Finset (Fin n)) (st : List (Fin n)),
    (n - (pushNbrs board player v st l).1.card) + (pushNbrs board player v st l).2.length
      = (n - v.card) + st.length := by
  intro l
  induction l with
  | nil => intro v st; rfl
  | cons nb rest ih =>
    intro v st
    rw [pushNbrs]
    by_cases h : board nb = player ∧ nb ∉ v
    · rw [if_pos h]
      rw [ih (insert nb v) (nb :: st)]
      have hcard : (insert nb v).card = v.card + 1 := Finset.card_insert_of_not_mem h.2
      have hle : (insert nb v).card ≤ n := by
        have := Finset.card_le_univ (insert nb v)
        simpa using this
      rw [hcard]
      rw [hcard] at hle
      simp only [List.length_cons]
      omega
    · rw [if_neg h]
      exact ih v st

lemma pushNbrs_stack_mem : ∀ (l : List (Fin n)) (v : Finset (Fin n)) (st : List (Fin n))
    (x : Fin n), x ∈ (pushNbrs board player v st l).2 →
    x ∈ st ∨ (x ∈ l ∧ board x = player) := by
  intro l
  induction l with
  | nil => intro v st x hx; exact Or.inl hx
  | cons nb rest ih =>
    intro v st x hx
    rw [pushNbrs] at hx
    by_cases h : board nb = player ∧ nb ∉ v
    · rw [if_pos h] at hx
      rcases ih (insert nb v) (nb :: st) x hx with hx | ⟨hx1, hx2⟩
      · rcases List.mem_cons.1 hx with hx | hx
        · subst hx; exact Or.inr ⟨List.mem_cons_self _ _, h.1⟩
        · exact Or.inl hx
      · exact Or.inr ⟨List.mem_cons_of_mem _ hx1, hx2⟩
    · rw [if_neg h] at hx
      rcases ih v st x hx with hx | ⟨hx1, hx2⟩
      · exact Or.inl hx
      · exact Or.inr ⟨List.mem_cons_of_mem _ hx1, hx2⟩

lemma pushNbrs_stack_super : ∀ (l : List (Fin n)) (v : Finset (Fin n)) (st : List (Fin n))
    (x : Fin n), x ∈ st → x ∈ (pushNbrs board player v st l).2 := by
  intro l
  induction l with
  | nil => intro v st x hx; exact hx
  | cons nb rest ih =>
    intro v st x hx
    rw [pushNbrs]
    by_cases h : board nb = player ∧ nb ∉ v
    · rw [if_pos h]
      exact ih (insert nb v) (nb :: st) x (List.mem_cons_of_mem nb hx)
    · rw [if_neg h]
      exact ih v st x hx

lemma pushNbrs_visited_mem : ∀ (l : List (Fin n)) (v : Finset (Fin n)) (st : List (Fin n))
    (x : Fin n), x ∈ (pushNbrs board player v st l).1 →
    x ∈ v ∨ (x ∈ l ∧ board x = player) := by
  intro l
  induction l with
  | nil => intro v st x hx; exact Or.inl hx
  | cons nb rest ih =>
    intro v st x hx
    rw [pushNbrs] at hx
    by_cases h : board nb = player ∧ nb ∉ v
    · rw [if_pos h] at hx
      rcases ih (insert nb v) (nb :: st) x hx with hx | ⟨hx1, hx2⟩
      · rcases Finset.mem_insert.1 hx with hx | hx
        · subst hx; exact Or.inr ⟨List.mem_cons_self _ _, h.1⟩
        · exact Or.inl hx
      · exact Or.inr ⟨List.mem_cons_of_mem _ hx1, hx2⟩
    · rw [if_neg h] at hx
      rcases ih v st x hx with hx | ⟨hx1, hx2⟩
      · exact Or.inl hx
      · exact Or.inr ⟨List.mem_cons_of_mem _ hx1, hx2⟩

lemma pushNbrs_complete : ∀ (l : List (Fin n)) (v : Finset (Fin n)) (st : List (Fin n))
    (x : Fin n), x ∈ l → board x = player → x ∈ (pushNbrs board player v st l).1 := by
  intro l
  induction l with
  | nil => intro v st x hx; exact absurd hx (List.not_mem_nil x)
  | cons nb rest ih =>
    intro v st x hx hbx
    rw [pushNbrs]
    rcases List.mem_cons.1 hx with hx | hx
    · subst hx
      by_cases h : board x = player ∧ x ∉ v
      · rw [if_pos h]
        exact pushNbrs_subset board player rest (insert x v) (x :: st)
          (Finset.mem_insert_self x v)
      · rw [if_neg h]
        have hxv : x ∈ v := by
          by_contra hxv
          exact h ⟨hbx, hxv⟩
        exact pushNbrs_subset board player rest v st hxv
    · by_cases h : board nb = player ∧ nb ∉ v
      · rw [if_pos h]
        exact ih (insert nb v) (nb :: st) x hx hbx
      · rw [if_neg h]
        exact ih v st x hx hbx

lemma pushNbrs_new_in_stack : ∀ (l : List (Fin n)) (v : Finset (Fin n)) (st : List (Fin n))
    (x : Fin n), x ∈ (pushNbrs board player v st l).1 →
    x ∈ v ∨ x ∈ (pushNbrs board player v st l).2 := by
  intro l
  induction l with
  | nil => intro v st x hx; exact Or.inl hx
  | cons nb rest ih =>
    intro v st x hx
    rw [pushNbrs] at hx ⊢
    by_cases h : board nb = player ∧ nb ∉ v
    · rw [if_pos h] at hx ⊢
      rcases ih (insert nb v) (nb :: st) x hx with hx | hx
      · rcases Finset.mem_insert.1 hx with hx | hx
        · subst hx
          exact Or.inr (pushNbrs_stack_super board player rest _ _ x (List.mem_cons_self _ _))
        · exact Or.inl hx
      · exact Or.inr hx
    · rw [if_neg h] at hx ⊢
      exact ih v st x hx

lemma pushNbrs_stack_sub_visited : ∀ (l : List (Fin n)) (v : Finset (Fin n))
    (st : List (Fin n)), (∀ x ∈ st, x ∈ v) →
    ∀ x ∈ (pushNbrs board player v st l).2, x ∈ (pushNbrs board player v st l).1 := by
  intro l
  induction l with
  | nil => intro v st hsub x hx; exact hsub x hx
  | cons nb rest ih =>
    intro v st hsub x hx
    rw [pushNbrs] at hx ⊢
    by_cases h : board nb = player ∧ nb ∉ v
    · rw [if_pos h] at hx ⊢
      refine ih (insert nb v) (nb :: st) ?_ x hx
      intro y hy
      rcases List.mem_cons.1 hy with hy | hy
      · subst hy; exact Finset.mem_insert_self y v
      · exact Finset.mem_insert_of_mem (hsub y hy)
    · rw [if_neg h] at hx ⊢
      exact ih v st hsub x hx

end DFSCorrect

section DFSCorrect

variable {n : Nat} (board edges : Fin n → Nat) (nbrs : Fin n → List (Fin n)) (player : Nat)

/-- Soundness of the DFS loop: every bit of the returned mask is carried by a
cell reachable from the root `r` inside `player`'s stones. -/
lemma dfsLoop_sound (r : Fin n) :
    ∀ (fuel : Nat) (v : Finset (Fin n)) (st : List (Fin n)) (m : Nat),
      (∀ x ∈ st, ReachesVia board nbrs player r x ∧ board x = player) →
      (∀ j, m.testBit j = true →
        ∃ x, ReachesVia board nbrs player r x ∧ (edges x).testBit j = true) →
      ∀ j, ((dfsLoop board edges nbrs player fuel v st m).1).testBit j = true →
        ∃ x, ReachesVia board nbrs player r x ∧ (edges x).testBit j = true := by
  intro fuel
  induction fuel with
  | zero =>
    intro v st m hst hm j hj
    cases st with
    | nil => exact hm j (by simpa [dfsLoop] using hj)
    | cons idx rest => exact hm j (by simpa [dfsLoop] using hj)
  | succ fuel ih =>
    intro v st m hst hm j hj
    cases st with
    | nil => exact hm j (by simpa [dfsLoop] using hj)
    | cons idx rest =>
      rw [dfsLoop] at hj
      dsimp only at hj
      have hidx := hst idx (List.mem_cons_self idx rest)
      have hm1 : ∀ j, (m ||| edges idx).testBit j = true →
          ∃ x, ReachesVia board nbrs player r x ∧ (edges x).testBit j = true := by
        intro j hj1
        rw [Nat.testBit_or] at hj1
        rcases Bool.or_eq_true_iff.1 hj1 with hj1 | hj1
        · exact hm j hj1
        · exact ⟨idx, hidx.1, hj1⟩
      by_cases h7 : m ||| edges idx = 7
      · rw [if_pos h7] at hj
        exact hm1 j hj
      · rw [if_neg h7] at hj
        refine ih _ _ _ ?_ hm1 j hj
        intro x hx
        rcases pushNbrs_stack_mem board player (nbrs idx) v rest x hx with hx | ⟨hx1, hx2⟩
        · exact hst x (List.mem_cons_of_mem idx hx)
        · exact ⟨Relation.ReflTransGen.tail hidx.1 ⟨hidx.2, hx2, hx1⟩, hx2⟩

/-- Soundness of the `check_win` scan: a reported win exhibits a stone of
`player` whose component carries all three edge bits. -/
lemma checkWinGo_sound :
    ∀ (l : List (Fin n)) (v : Finset (Fin n)) (st : List (Fin n)),
      (checkWinGo board edges nbrs player l v st).1 = true →
      ∃ c, board c = player ∧ AllBitsVia board edges nbrs player c := by
  intro l
  induction l with
  | nil => intro v st h; exact absurd h (by simp [checkWinGo])
  | cons idx rest ih =>
    intro v st h
    rw [checkWinGo] at h
    by_cases hc : board idx = player ∧ edges idx ≠ 0 ∧ idx ∉ v
    · rw [if_pos hc] at h
      dsimp only at h
      by_cases h7 : (dfsLoop board edges nbrs player n (insert idx v) [idx] 0).1 = 7
      · have hsound := dfsLoop_sound board edges nbrs player idx n (insert idx v) [idx] 0
          (by
            intro x hx
            rcases List.mem_cons.1 hx with hx | hx
            · subst hx; exact ⟨Relation.ReflTransGen.refl, hc.1⟩
            · exact absurd hx (List.not_mem_nil x))
          (by
            intro j hj
            rw [Nat.zero_testBit] at hj
            exact absurd hj (by simp))
        refine ⟨idx, hc.1, ?_, ?_, ?_⟩
        · exact hsound 0 (by rw [h7]; decide)
        · exact hsound 1 (by rw [h7]; decide)
        · exact hsound 2 (by rw [h7]; decide)
      · rw [if_neg h7] at h
        exact ih _ _ h
    · rw [if_neg hc] at h
      exact ih _ _ h

end DFSCorrect

section DFSCorrect

variable {n : Nat} (board edges : Fin n → Nat) (nbrs : Fin n → List (Fin n)) (player : Nat)

lemma reachesVia_symm (hsym : ∀ i j, j ∈ nbrs i → i ∈ nbrs j) {x y : Fin n}
    (h : ReachesVia board nbrs player x y) : ReachesVia board nbrs player y x :=
  Relation.ReflTransGen.symmetric
    (fun a b hab => ⟨hab.2.1, hab.1, hsym a b hab.2.2⟩) h

lemma reachesVia_board {x y : Fin n} (h : ReachesVia board nbrs player x y)
    (hx : board x = player) : board y = player := by
  induction h with
  | refl => exact hx
  | tail _ hbc _ => exact hbc.2.1

lemma allBitsVia_of_reaches (hsym : ∀ i j, j ∈ nbrs i → i ∈ nbrs j) {x y : Fin n}
    (h : ReachesVia board nbrs player x y) (ha : AllBitsVia board edges nbrs player x) :
    AllBitsVia board edges nbrs player y := by
  obtain ⟨⟨a0, h0, b0⟩, ⟨a1, h1, b1⟩, ⟨a2, h2, b2⟩⟩ := ha
  have hyx := reachesVia_symm board nbrs player hsym h
  exact ⟨⟨a0, hyx.trans h0, b0⟩, ⟨a1, hyx.trans h1, b1⟩, ⟨a2, hyx.trans h2, b2⟩⟩

lemma mem_of_reaches_closed {V : Finset (Fin n)}
    (hcl : ∀ x ∈ V, ∀ y ∈ nbrs x, board y = player → y ∈ V) {x y : Fin n}
    (hx : x ∈ V) (h : ReachesVia board nbrs player x y) : y ∈ V := by
  induction h with
  | refl => exact hx
  | tail _ hbc ih => exact hcl _ ih _ hbc.2.2 hbc.2.1

lemma not_mem_closed_of_reaches (hsym : ∀ i j, j ∈ nbrs i → i ∈ nbrs j)
    {V : Finset (Fin n)}
    (hcl : ∀ x ∈ V, ∀ y ∈ nbrs x, board y = player → y ∈ V) {start y : Fin n}
    (hstart : start ∉ V) (h : ReachesVia board nbrs player start y) : y ∉ V := by
  induction h with
  | refl => exact hstart
  | tail hab hbc ih =>
    intro hy
    exact ih (hcl _ hy _ (hsym _ _ hbc.2.2) hbc.1)

lemma eq_seven_of_bits {m : Nat} (hm : m < 8) (h0 : m.testBit 0 = true)
    (h1 : m.testBit 1 = true) (h2 : m.testBit 2 = true) : m = 7 := by
  apply Nat.eq_of_testBit_eq
  intro j
  match j with
  | 0 => rw [h0]; decide
  | 1 => rw [h1]; decide
  | 2 => rw [h2]; decide
  | (j+3) =>
    rw [Nat.testBit_lt_two_pow, Nat.testBit_lt_two_pow]
    · calc (7:Nat) < 8 := by decide
        _ = 2^3 := by decide
        _ ≤ 2^(j+3) := Nat.pow_le_pow_right (by decide) (by omega)
    · calc m < 8 := hm
        _ = 2^3 := by decide
        _ ≤ 2^(j+3) := Nat.pow_le_pow_right (by decide) (by omega)

/-- Completeness of the DFS loop: unless the mask reaches 7, the loop visits
the whole pending region, the final visited set is adjacency-closed, and the
edge bits of every newly visited cell are accumulated into the final mask. -/
lemma dfsLoop_complete (hedge : ∀ i, edges i < 8) (r : Fin n) (v0 : Finset (Fin n)) :
    ∀ (fuel : Nat) (v : Finset (Fin n)) (st : List (Fin n)) (m : Nat),
      (∀ x ∈ v, board x = player) →
      (∀ x ∈ v, x ∈ st ∨ ∀ y ∈ nbrs x, board y = player → y ∈ v) →
      (∀ x ∈ v, x ∈ v0 ∨ x ∈ st ∨ ∀ j, (edges x).testBit j = true → m.testBit j = true) →
      (∀ x ∈ st, x ∈ v) →
      m < 8 →
      (∀ x ∈ v, x ∈ v0 ∨ ReachesVia board nbrs player r x) →
      (∀ x ∈ st, ReachesVia board nbrs player r x ∧ board x = player) →
      (n - v.card) + st.length ≤ fuel →
      v0 ⊆ v →
      ((dfsLoop board edges nbrs player fuel v st m).1 = 7 ∨
        ((dfsLoop board edges nbrs player fuel v st m).1 < 8
        ∧ (∀ x ∈ (dfsLoop board edges nbrs player fuel v st m).2.1, board x = player)
        ∧ (∀ x ∈ (dfsLoop board edges nbrs player fuel v st m).2.1,
            ∀ y ∈ nbrs x, board y = player → y ∈ (dfsLoop board edges nbrs player fuel v st m).2.1)
        ∧ (∀ x ∈ (dfsLoop board edges nbrs player fuel v st m).2.1, x ∈ v0 ∨
            ((∀ j, (edges x).testBit j = true →
              ((dfsLoop board edges nbrs player fuel v st m).1).testBit j = true)
            ∧ ReachesVia board nbrs player r x))
        ∧ v ⊆ (dfsLoop board edges nbrs player fuel v st m).2.1)) := by
  intro fuel
  induction fuel with
  | zero =>
    intro v st m h1 h2 h3 h4 h5 h6 h8 h7 hv0
    cases st with
    | nil =>
      show (m = 7 ∨ _)
      by_cases hm7 : m = 7
      · exact Or.inl hm7
      · refine Or.inr ⟨h5, h1, ?_, ?_, fun x hx => hx⟩
        · intro x hx
          rcases h2 x hx with hx1 | hx1
          · exact absurd hx1 (List.not_mem_nil x)
          · exact hx1
        · intro x hx
          rcases h3 x hx with hx1 | hx1 | hx1
          · exact Or.inl hx1
          · exact absurd hx1 (List.not_mem_nil x)
          · rcases h6 x hx with hx2 | hx2
            · exact Or.inl hx2
            · exact Or.inr ⟨hx1, hx2⟩
    | cons idx rest =>
      exfalso
      simp only [List.length_cons] at h7
      omega
  | succ fuel ih =>
    intro v st m h1 h2 h3 h4 h5 h6 h8 h7 hv0
    cases st with
    | nil =>
      show (m = 7 ∨ _)
      by_cases hm7 : m = 7
      · exact Or.inl hm7
      · refine Or.inr ⟨h5, h1, ?_, ?_, fun x hx => hx⟩
        · intro x hx
          rcases h2 x hx with hx1 | hx1
          · exact absurd hx1 (List.not_mem_nil x)
          · exact hx1
        · intro x hx
          rcases h3 x hx with hx1 | hx1 | hx1
          · exact Or.inl hx1
          · exact absurd hx1 (List.not_mem_nil x)
          · rcases h6 x hx with hx2 | hx2
            · exact Or.inl hx2
            · exact Or.inr ⟨hx1, hx2⟩
    | cons idx rest =>
      rw [dfsLoop]
      dsimp only
      have hidx := h8 idx (List.mem_cons_self idx rest)
      have hm1lt : m ||| edges idx < 8 := Nat.or_lt_two_pow (n := 3) h5 (hedge idx)
      by_cases h7m : m ||| edges idx = 7
      · rw [if_pos h7m]
        exact Or.inl h7m
      · rw [if_neg h7m]
        have hmono := pushNbrs_subset board player (nbrs idx) v rest
        refine ih (pushNbrs board player v rest (nbrs idx)).1
          (pushNbrs board player v rest (nbrs idx)).2 (m ||| edges idx)
          ?_ ?_ ?_ ?_ hm1lt ?_ ?_ ?_ (fun x hx => hmono (hv0 hx))
          |>.imp id (fun h => ⟨h.1, h.2.1, h.2.2.1, h.2.2.2.1,
            fun x hx => h.2.2.2.2 (hmono hx)⟩)
        · intro x hx
          rcases pushNbrs_visited_mem board player (nbrs idx) v rest x hx with hx | ⟨-, hx2⟩
          · exact h1 x hx
          · exact hx2
        · intro x hx
          rcases pushNbrs_new_in_stack board player (nbrs idx) v rest x hx with hxv | hxs
          · rcases h2 x hxv with hx1 | hx1
            · rcases List.mem_cons.1 hx1 with hx2 | hx2
              · subst hx2
                exact Or.inr (fun y hy hby =>
                  pushNbrs_complete board player (nbrs x) v rest y hy hby)
              · exact Or.inl (pushNbrs_stack_super board player (nbrs idx) v rest x hx2)
            · exact Or.inr (fun y hy hby => hmono (hx1 y hy hby))
          · exact Or.inl hxs
        · intro x hx
          rcases pushNbrs_new_in_stack board player (nbrs idx) v rest x hx with hxv | hxs
          · rcases h3 x hxv with hx1 | hx1 | hx1
            · exact Or.inl hx1
            · rcases List.mem_cons.1 hx1 with hx2 | hx2
              · subst hx2
                refine Or.inr (Or.inr (fun j hj => ?_))
                rw [Nat.testBit_or, hj]
                simp
              · exact Or.inr (Or.inl
                  (pushNbrs_stack_super board player (nbrs idx) v rest x hx2))
            · refine Or.inr (Or.inr (fun j hj => ?_))
              rw [Nat.testBit_or, hx1 j hj]
              simp
          · exact Or.inr (Or.inl hxs)
        · exact pushNbrs_stack_sub_visited board player (nbrs idx) v rest
            (fun x hx => h4 x (List.mem_cons_of_mem idx hx))
        · intro x hx
          rcases pushNbrs_visited_mem board player (nbrs idx) v rest x hx with hx | ⟨hx1, hx2⟩
          · exact h6 x hx
          · exact Or.inr (Relation.ReflTransGen.tail hidx.1 ⟨hidx.2, hx2, hx1⟩)
        · intro x hx
          rcases pushNbrs_stack_mem board player (nbrs idx) v rest x hx with hx | ⟨hx1, hx2⟩
          · exact h8 x (List.mem_cons_of_mem idx hx)
          · exact ⟨Relation.ReflTransGen.tail hidx.1 ⟨hidx.2, hx2, hx1⟩, hx2⟩
        · have hmeas := pushNbrs_measure board player (nbrs idx) v rest
          rw [hmeas]
          simp only [List.length_cons] at h7
          omega

end DFSCorrect

section DFSCorrect

variable {n : Nat} (board edges : Fin n → Nat) (nbrs : Fin n → List (Fin n)) (player : Nat)

/-- Completeness of the `check_win` scan: if the scan reports no win and the
visited set carries the global invariant (player-owned, adjacency-closed, and
no visited component has all three bits), then no scanned stone of `player`
with a nonzero edge flag has a full-edge component. -/
lemma checkWinGo_complete (hedge : ∀ i, edges i < 8)
    (hsym : ∀ i j, j ∈ nbrs i → i ∈ nbrs j) :
    ∀ (l : List (Fin n)) (v : Finset (Fin n)) (st : List (Fin n)),
      (∀ x ∈ v, board x = player) →
      (∀ x ∈ v, ∀ y ∈ nbrs x, board y = player → y ∈ v) →
      (∀ x ∈ v, ¬ AllBitsVia board edges nbrs player x) →
      (checkWinGo board edges nbrs player l v st).1 = false →
      ∀ c ∈ l, board c = player → edges c ≠ 0 → ¬ AllBitsVia board edges nbrs player c := by
  intro l
  induction l with
  | nil => intro v st _ _ _ _ c hc; exact absurd hc (List.not_mem_nil c)
  | cons idx rest ih =>
    intro v st g1 g2 g3 h c hc hbc hec
    rw [checkWinGo] at h
    by_cases hguard : board idx = player ∧ edges idx ≠ 0 ∧ idx ∉ v
    · rw [if_pos hguard] at h
      dsimp only at h
      by_cases h7 : (dfsLoop board edges nbrs player n (insert idx v) [idx] 0).1 = 7
      · rw [if_pos h7] at h
        exact absurd h (by simp)
      · rw [if_neg h7] at h
        have hcard1 : 1 ≤ (insert idx v).card :=
          Finset.card_pos.2 ⟨idx, Finset.mem_insert_self idx v⟩
        have hcardn : (insert idx v).card ≤ n := by
          have := Finset.card_le_univ (insert idx v)
          simpa using this
        have hcomp := dfsLoop_complete board edges nbrs player hedge idx v n
          (insert idx v) [idx] 0
          (by
            intro x hx
            rcases Finset.mem_insert.1 hx with hx | hx
            · rw [hx]; exact hguard.1
            · exact g1 x hx)
          (by
            intro x hx
            rcases Finset.mem_insert.1 hx with hx | hx
            · exact Or.inl (by rw [hx]; exact List.mem_cons_self idx [])
            · exact Or.inr (fun y hy hby => Finset.mem_insert_of_mem (g2 x hx y hy hby)))
          (by
            intro x hx
            rcases Finset.mem_insert.1 hx with hx | hx
            · exact Or.inr (Or.inl (by rw [hx]; exact List.mem_cons_self idx []))
            · exact Or.inl hx)
          (by
            intro x hx
            rcases List.mem_cons.1 hx with hx | hx
            · rw [hx]; exact Finset.mem_insert_self idx v
            · exact absurd hx (List.not_mem_nil x))
          (by decide)
          (by
            intro x hx
            rcases Finset.mem_insert.1 hx with hx | hx
            · exact Or.inr (by rw [hx]; exact Relation.ReflTransGen.refl)
            · exact Or.inl hx)
          (by
            intro x hx
            rcases List.mem_cons.1 hx with hx | hx
            · rw [hx]; exact ⟨Relation.ReflTransGen.refl, hguard.1⟩
            · exact absurd hx (List.not_mem_nil x))
          (by simp only [List.length_cons, List.length_nil]; omega)
          (fun x hx => Finset.mem_insert_of_mem hx)
        rcases hcomp with h7x | ⟨hlt, k1, k2, k3, k4⟩
        · exact absurd h7x h7
        · have hreach_mem : ∀ a, ReachesVia board nbrs player idx a →
              a ∈ (dfsLoop board edges nbrs player n (insert idx v) [idx] 0).2.1 ∧ a ∉ v := by
            intro a ha
            constructor
            · exact mem_of_reaches_closed board nbrs player k2
                (k4 (Finset.mem_insert_self idx v)) ha
            · exact not_mem_closed_of_reaches board nbrs player hsym g2 hguard.2.2 ha
          have hbits : ∀ a j, ReachesVia board nbrs player idx a →
              (edges a).testBit j = true →
              ((dfsLoop board edges nbrs player n (insert idx v) [idx] 0).1).testBit j
                = true := by
            intro a j ha hbit
            rcases hreach_mem a ha with ⟨hmem, hnv⟩
            rcases k3 a hmem with hav | ⟨hb, -⟩
            · exact absurd hav hnv
            · exact hb j hbit
          have hnall : ¬ AllBitsVia board edges nbrs player idx := by
            rintro ⟨⟨a0, hr0, hb0⟩, ⟨a1, hr1, hb1⟩, ⟨a2, hr2, hb2⟩⟩
            exact h7 (eq_seven_of_bits hlt (hbits a0 0 hr0 hb0) (hbits a1 1 hr1 hb1)
              (hbits a2 2 hr2 hb2))
          have g3x : ∀ x ∈ (dfsLoop board edges nbrs player n (insert idx v) [idx] 0).2.1,
              ¬ AllBitsVia board edges nbrs player x := by
            intro x hx hax
            rcases k3 x hx with hxv | ⟨-, hr⟩
            · exact g3 x hxv hax
            · exact hnall (allBitsVia_of_reaches board edges nbrs player hsym
                (reachesVia_symm board nbrs player hsym hr) hax)
          rcases List.mem_cons.1 hc with hcx | hcx
          · rw [hcx]; exact hnall
          · exact ih _ _ k1 k2 g3x h c hcx hbc hec
    · rw [if_neg hguard] at h
      rcases List.mem_cons.1 hc with hcx | hcx
      · rw [hcx]
        have hidxv : idx ∈ v := by
          by_contra hnv
          exact hguard ⟨by rw [← hcx]; exact hbc, by rw [← hcx]; exact hec, hnv⟩
        exact g3 idx hidxv
      · exact ih _ _ g1 g2 g3 h c hcx hbc hec

end DFSCorrect

lemma winSpec_iff_allBits {n : Nat} (s : MinimaxState n) (player : Nat) :
    WinSpec s player ↔
      ∃ c, s.board c = player ∧
        AllBitsVia s.board s.edges_cache s.neighbors_cache player c :=
  Iff.rfl

/-- Claim C2 — Win detection correctness: under the structural facts that
edge flags are 3-bit masks and the cached adjacency is symmetric (both hold
for every snapshot `MinimaxState.new` builds from a geometric board),
`check_win player` returns `true` exactly when some connected component of
`player`'s stones carries all three edge bits — i.e. when the union of the
component's edge flags is `0b111`.  In particular an isolated stone on one
edge, or three mutually disconnected stones on three different edges, never
report a win. -/
theorem check_win_iff_winSpec {n : Nat} (s : MinimaxState n) (player : Nat)
    (hedge : EdgesWF s) (hsym : SymmetricAdj s) :
    (s.check_win player).1 = true ↔ WinSpec s player := by
  rw [check_win_eq_go]
  rw [winSpec_iff_allBits]
  constructor
  · intro h
    exact checkWinGo_sound s.board s.edges_cache s.neighbors_cache player
      (List.finRange n) ∅ s.stack h
  · rintro ⟨c, hbc, hall⟩
    obtain ⟨a0, hr0, hb0⟩ := hall.1
    have hba0 : s.board a0 = player :=
      reachesVia_board s.board s.neighbors_cache player hr0 hbc
    have hea0 : s.edges_cache a0 ≠ 0 := by
      intro h0
      rw [h0, Nat.zero_testBit] at hb0
      exact absurd hb0 (by simp)
    have halla0 : AllBitsVia s.board s.edges_cache s.neighbors_cache player a0 :=
      allBitsVia_of_reaches s.board s.edges_cache s.neighbors_cache player hsym hr0 hall
    by_contra hfalse
    have hres : (checkWinGo s.board s.edges_cache s.neighbors_cache player
        (List.finRange n) ∅ s.stack).1 = false := by
      cases hr : (checkWinGo s.board s.edges_cache s.neighbors_cache player
          (List.finRange n) ∅ s.stack).1 with
      | true => exact absurd hr hfalse
      | false => rfl
    exact checkWinGo_complete s.board s.edges_cache s.neighbors_cache player hedge hsym
      (List.finRange n) ∅ s.stack (by simp) (by simp) (by simp) hres a0
      (List.mem_finRange a0) hba0 hea0 halla0

/-- Witness for C2 on the snapshot `S4` (whose edge flags are 3-bit and whose
adjacency is symmetric): the win check for the bot agrees with the
component-based specification. -/
theorem check_win_iff_winSpec_witness :
    (EdgesWF S4 ∧ SymmetricAdj S4) ∧
      ((S4.check_win S4.bot_id).1 = true ↔ WinSpec S4 S4.bot_id) :=
  ⟨⟨by decide, by decide⟩, check_win_iff_winSpec S4 S4.bot_id (by decide) (by decide)⟩

/-! ### Bounding the static evaluation (for the alpha-beta equivalence) -/

lemma list_abs_sum_le (l : List Int) : |l.sum| ≤ (l.map (fun x => |x|)).sum := by
  induction l with
  | nil => simp
  | cons x rest ih =>
    rw [List.sum_cons, List.map_cons, List.sum_cons]
    calc |x + rest.sum| ≤ |x| + |rest.sum| := abs_add x rest.sum
      _ ≤ |x| + (rest.map (fun x => |x|)).sum := by
          exact add_le_add_left ih _

lemma abs_tdiv_le (a b : Int) : |a.tdiv b| ≤ |a| := by
  rw [Int.abs_eq_natAbs, Int.abs_eq_natAbs, Int.natAbs_tdiv]
  exact Int.ofNat_le.2 (Nat.div_le_self _ _)

lemma list_sum_const {α : Type} (l : List α) (k : Int) :
    (l.map (fun _ => k)).sum = k * l.length := by
  induction l with
  | nil => simp
  | cons x rest ih =>
    rw [List.map_cons, List.sum_cons, ih]
    simp only [List.length_cons]
    push_cast
    ring

lemma countOnes8_le (m : Nat) : countOnes8 m ≤ 8 := by
  unfold countOnes8
  have h1 : m % 2 ≤ 1 := Nat.le_of_lt_succ (Nat.mod_lt _ (by omega))
  have h2 : m / 2 % 2 ≤ 1 := Nat.le_of_lt_succ (Nat.mod_lt _ (by omega))
  have h3 : m / 4 % 2 ≤ 1 := Nat.le_of_lt_succ (Nat.mod_lt _ (by omega))
  have h4 : m / 8 % 2 ≤ 1 := Nat.le_of_lt_succ (Nat.mod_lt _ (by omega))
  have h5 : m / 16 % 2 ≤ 1 := Nat.le_of_lt_succ (Nat.mod_lt _ (by omega))
  have h6 : m / 32 % 2 ≤ 1 := Nat.le_of_lt_succ (Nat.mod_lt _ (by omega))
  have h7 : m / 64 % 2 ≤ 1 := Nat.le_of_lt_succ (Nat.mod_lt _ (by omega))
  have h8 : m / 128 % 2 ≤ 1 := Nat.le_of_lt_succ (Nat.mod_lt _ (by omega))
  omega

lemma ownedCells_sublist {n : Nat} (s : MinimaxState n) (player : Nat) :
    (ownedCells s player).Sublist (List.finRange n) := by
  unfold ownedCells MinimaxState.occupied_cells
  exact (List.filter_sublist _).trans (List.filter_sublist _)

lemma ownedCells_length_le {n : Nat} (s : MinimaxState n) (player : Nat) :
    (ownedCells s player).length ≤ n := by
  have := (ownedCells_sublist s player).length_le
  simpa using this

lemma occupied_length_le {n : Nat} (s : MinimaxState n) : s.occupied_cells.length ≤ n := by
  have h := List.length_filter_le (fun i => !s.available_mask i) (List.finRange n)
  simpa using h

lemma connSum_nonneg {n : Nat} (s : MinimaxState n) : 0 ≤ connSum s :=
  List.sum_nonneg (by
    intro x hx
    rcases List.mem_map.1 hx with ⟨i, -, rfl⟩
    exact Int.ofNat_nonneg _)

lemma centerSum_nonneg {n : Nat} (s : MinimaxState n) : 0 ≤ centerSum s :=
  List.sum_nonneg (by
    intro x hx
    rcases List.mem_map.1 hx with ⟨i, -, rfl⟩
    have := abs_nonneg (off_center s i)
    omega)

lemma psBound_nonneg {n : Nat} (s : MinimaxState n) : 0 ≤ psBound s := by
  unfold psBound
  have h1 := connSum_nonneg s
  have h2 := centerSum_nonneg s
  have h3 : (0 : Int) ≤ n := Int.ofNat_nonneg n
  positivity

/-- Sum over the owned cells bounded by the corresponding sum over all cells,
for a nonnegative weight depending only on the cell. -/
lemma owned_sum_le {n : Nat} (s : MinimaxState n) (player : Nat) (g : Fin n → Int)
    (hg : ∀ i, 0 ≤ g i) :
    ((ownedCells s player).map g).sum ≤ ((List.finRange n).map g).sum :=
  List.Sublist.sum_le_sum ((ownedCells_sublist s player).map g)
    (by
      intro x hx
      rcases List.mem_map.1 hx with ⟨i, -, rfl⟩
      exact hg i)

lemma eps_abs_le_psBound {n : Nat} (s : MinimaxState n) (player : Nat) :
    |evaluate_position_strength s player| ≤ psBound s := by
  unfold evaluate_position_strength
  dsimp only
  set owned := ownedCells s player with howned
  set bonus : Int :=
    (owned.map (fun i => if 2 ≤ same_owner_neighbors s player i then (40 : Int) else 0)).sum
    with hbonus
  set edges_touched : Nat := owned.foldl (fun acc i => acc ||| s.edges_cache i) 0
  set total_connections : Int :=
    (owned.map (fun i => (same_owner_neighbors s player i : Int))).sum with hconn
  set center_control : Int := (owned.map (fun i => 50 - off_center s i)).sum with hcc
  have hbonus_lb : 0 ≤ bonus := by
    rw [hbonus]
    refine List.sum_nonneg ?_
    intro x hx
    rcases List.mem_map.1 hx with ⟨i, -, rfl⟩
    by_cases h : 2 ≤ same_owner_neighbors s player i <;> simp [h]
  have hbonus_ub : bonus ≤ 40 * n := by
    rw [hbonus]
    calc (owned.map (fun i => if 2 ≤ same_owner_neighbors s player i then (40 : Int) else 0)).sum
        ≤ (owned.map (fun _ => (40 : Int))).sum := by
          refine List.sum_le_sum ?_
          intro i _
          by_cases h : 2 ≤ same_owner_neighbors s player i <;> simp [h]
      _ = 40 * owned.length := list_sum_const owned 40
      _ ≤ 40 * n := by
          have := ownedCells_length_le s player
          rw [howned] at *
          omega
  have hedges : (countOnes8 edges_touched : Int) * 5 ≤ 40 ∧
      (0 : Int) ≤ (countOnes8 edges_touched : Int) * 5 := by
    constructor
    · have := countOnes8_le edges_touched
      have h8 : (countOnes8 edges_touched : Int) ≤ 8 := by exact_mod_cast this
      nlinarith
    · positivity
  have hconn_lb : 0 ≤ total_connections := by
    rw [hconn]
    refine List.sum_nonneg ?_
    intro x hx
    rcases List.mem_map.1 hx with ⟨i, -, rfl⟩
    exact Int.ofNat_nonneg _
  have hconn_ub : total_connections ≤ connSum s := by
    rw [hconn]
    calc (owned.map (fun i => (same_owner_neighbors s player i : Int))).sum
        ≤ (owned.map (fun i => ((s.neighbors_cache i).length : Int))).sum := by
          refine List.sum_le_sum ?_
          intro i _
          have : same_owner_neighbors s player i ≤ (s.neighbors_cache i).length :=
            List.length_filter_le _ _
          exact_mod_cast this
      _ ≤ connSum s := by
          rw [howned]
          exact owned_sum_le s player _ (fun i => Int.ofNat_nonneg _)
  have hcc_abs : |center_control| ≤ centerSum s := by
    rw [hcc]
    calc |(owned.map (fun i => 50 - off_center s i)).sum|
        ≤ ((owned.map (fun i => 50 - off_center s i)).map (fun x => |x|)).sum :=
          list_abs_sum_le _
      _ = (owned.map (fun i => |50 - off_center s i|)).sum := by rw [List.map_map]; rfl
      _ ≤ (owned.map (fun i => 50 + |off_center s i|)).sum := by
          refine List.sum_le_sum ?_
          intro i _
          calc |50 - off_center s i| ≤ |(50 : Int)| + |off_center s i| := by
                have := abs_sub (50 : Int) (off_center s i)
                simpa using this
            _ = 50 + |off_center s i| := by norm_num
      _ ≤ centerSum s := by
          rw [howned]
          exact owned_sum_le s player _ (fun i => by positivity)
  set center_score : Int := (if n = 0 then (0 : Int)
      else Int.tdiv (center_control * (5 * ((n : Int) - s.occupied_cells.length))) n)
    with hcsdef
  have hcenter : |center_score| ≤ 5 * n * centerSum s := by
    rw [hcsdef]
    by_cases hn : n = 0
    · rw [if_pos hn]
      simp only [abs_zero]
      have := centerSum_nonneg s
      positivity
    · rw [if_neg hn]
      have hpieces : (s.occupied_cells.length : Int) ≤ n := by
        exact_mod_cast occupied_length_le s
      have hw_lb : (0 : Int) ≤ (n : Int) - s.occupied_cells.length := by omega
      have hw_ub : (n : Int) - s.occupied_cells.length ≤ n := by
        have : (0 : Int) ≤ (s.occupied_cells.length : Int) := Int.ofNat_nonneg _
        omega
      calc |Int.tdiv (center_control * (5 * ((n : Int) - s.occupied_cells.length))) n|
          ≤ |center_control * (5 * ((n : Int) - s.occupied_cells.length))| := abs_tdiv_le _ _
        _ = |center_control| * |5 * ((n : Int) - s.occupied_cells.length)| := abs_mul _ _
        _ ≤ centerSum s * (5 * n) := by
            refine mul_le_mul hcc_abs ?_ (abs_nonneg _) (centerSum_nonneg s)
            rw [abs_of_nonneg (by positivity)]
            omega
        _ = 5 * n * centerSum s := by ring
  have t3 : |bonus + (countOnes8 edges_touched : Int) * 5|
      ≤ |bonus| + |(countOnes8 edges_touched : Int) * 5| := abs_add _ _
  have t2 : |bonus + (countOnes8 edges_touched : Int) * 5 + total_connections * 25|
      ≤ |bonus + (countOnes8 edges_touched : Int) * 5| + |total_connections * 25| := abs_add _ _
  have t1 : |bonus + (countOnes8 edges_touched : Int) * 5 + total_connections * 25 + center_score|
      ≤ |bonus + (countOnes8 edges_touched : Int) * 5 + total_connections * 25|
        + |center_score| := abs_add _ _
  have hb : |bonus| ≤ 40 * n := by
    rw [abs_of_nonneg hbonus_lb]
    exact hbonus_ub
  have he : |(countOnes8 edges_touched : Int) * 5| ≤ 40 := by
    rw [abs_of_nonneg hedges.2]
    exact hedges.1
  have hc : |total_connections * 25| ≤ 25 * connSum s := by
    rw [abs_mul, abs_of_nonneg hconn_lb]
    have h25 : |(25 : Int)| = 25 := by norm_num
    rw [h25]
    linarith [hconn_ub]
  unfold psBound
  linarith [t1, t2, t3, hb, he, hc, hcenter]

lemma evalVal_abs_le {n : Nat} (s : MinimaxState n) : |evalVal s| ≤ evalBound s := by
  unfold evalVal evalBound
  have hps1 := eps_abs_le_psBound s s.bot_id
  have hps2 := eps_abs_le_psBound s s.human_id
  have habs := abs_sub (evaluate_position_strength s s.bot_id)
    (evaluate_position_strength s s.human_id)
  have hnn := psBound_nonneg s
  by_cases h1 : checkWinVal s s.bot_id
  · rw [if_pos h1]
    rw [show |WIN_SCORE| = WIN_SCORE from by decide]
    omega
  · rw [if_neg h1]
    by_cases h2 : checkWinVal s s.human_id
    · rw [if_pos h2]
      rw [show |LOSE_SCORE| = WIN_SCORE from by decide]
      omega
    · rw [if_neg h2]
      have : |evaluate_position_strength s s.bot_id - evaluate_position_strength s s.human_id|
          ≤ psBound s + psBound s := by
        calc |evaluate_position_strength s s.bot_id - evaluate_position_strength s s.human_id|
            ≤ |evaluate_position_strength s s.bot_id|
              + |evaluate_position_strength s s.human_id| := by simpa using habs
          _ ≤ psBound s + psBound s := add_le_add hps1 hps2
      have hws : (0 : Int) ≤ WIN_SCORE := by decide
      omega

lemma evalBound_make {n : Nat} (s : MinimaxState n) (c : Fin n) (p : Nat) :
    evalBound (s.make_move c p) = evalBound s := rfl

lemma evalBound_coreEq {n : Nat} {s t : MinimaxState n} (h : CoreEq s t) :
    evalBound s = evalBound t := by
  unfold evalBound psBound connSum centerSum off_center
  rw [h.2.2.1, h.2.2.2.2.1]

/-! ### Alpha-beta pruning equals exhaustive minimax (claim C3) -/

lemma le_plainFoldMax_seed {n : Nat} (pv : Fin n → Int) :
    ∀ (l : List (Fin n)) (seed : Int), seed ≤ plainFoldMax pv l seed := by
  intro l
  induction l with
  | nil => intro seed; exact le_refl seed
  | cons m rest ih =>
    intro seed
    rw [plainFoldMax]
    exact le_trans (le_max_left seed (pv m)) (ih (max seed (pv m)))

lemma plainFoldMax_le {n : Nat} (pv : Fin n → Int) :
    ∀ (l : List (Fin n)) (seed M : Int), seed ≤ M → (∀ m ∈ l, pv m ≤ M) →
      plainFoldMax pv l seed ≤ M := by
  intro l
  induction l with
  | nil => intro seed M h _; exact h
  | cons m rest ih =>
    intro seed M h hl
    rw [plainFoldMax]
    exact ih _ M (max_le h (hl m (List.mem_cons_self m rest)))
      (fun x hx => hl x (List.mem_cons_of_mem m hx))

lemma plainFoldMin_le_seed {n : Nat} (pv : Fin n → Int) :
    ∀ (l : List (Fin n)) (seed : Int), plainFoldMin pv l seed ≤ seed := by
  intro l
  induction l with
  | nil => intro seed; exact le_refl seed
  | cons m rest ih =>
    intro seed
    rw [plainFoldMin]
    exact le_trans (ih (min seed (pv m))) (min_le_left seed (pv m))

lemma le_plainFoldMin {n : Nat} (pv : Fin n → Int) :
    ∀ (l : List (Fin n)) (seed M : Int), M ≤ seed → (∀ m ∈ l, M ≤ pv m) →
      M ≤ plainFoldMin pv l seed := by
  intro l
  induction l with
  | nil => intro seed M h _; exact h
  | cons m rest ih =>
    intro seed M h hl
    rw [plainFoldMin]
    exact ih _ M (le_min h (hl m (List.mem_cons_self m rest)))
      (fun x hx => hl x (List.mem_cons_of_mem m hx))

lemma plainVal_bounds : ∀ (d : Nat) {n : Nat} (s : MinimaxState n) (mx : Bool),
    evalBound s ≤ INFINITY →
    -INFINITY ≤ plainVal d s mx ∧ plainVal d s mx ≤ INFINITY := by
  intro d
  induction d with
  | zero =>
    intro n s mx hB
    have h := evalVal_abs_le s
    have := abs_le.1 (le_trans h hB)
    constructor
    · have : -INFINITY ≤ evalVal s := this.1
      simpa [plainVal] using this
    · have : evalVal s ≤ INFINITY := this.2
      simpa [plainVal] using this
  | succ d ih =>
    intro n s mx hB
    cases mx with
    | true =>
      rw [plainVal]
      constructor
      · exact le_plainFoldMax_seed _ _ _
      · refine plainFoldMax_le _ _ _ _ (by decide) ?_
        intro m _
        have hBm : evalBound (s.make_move m s.bot_id) ≤ INFINITY := by
          rw [evalBound_make]; exact hB
        exact (ih (s.make_move m s.bot_id) false hBm).2
    | false =>
      rw [plainVal]
      constructor
      · refine le_plainFoldMin _ _ _ _ (by decide) ?_
        intro m _
        have hBm : evalBound (s.make_move m s.human_id) ≤ INFINITY := by
          rw [evalBound_make]; exact hB
        exact (ih (s.make_move m s.human_id) true hBm).1
      · exact plainFoldMin_le_seed _ _ _

lemma ABRel_self (v a b : Int) : ABRel v v a b :=
  ⟨fun h => ⟨le_refl v, h⟩, fun h => ⟨h, le_refl v⟩, fun _ _ => rfl⟩

/-- Key loop lemma for the maximizing node: the pruning fold and the
exhaustive fold stand in the fail-soft relation, given that every child does
at every subwindow. -/
lemma abFoldMax_ABRel {n : Nat} (child : Fin n → Int → Int → Int) (pv : Fin n → Int)
    (beta : Int) (hchild : ∀ m a, a < beta → ABRel (child m a beta) (pv m) a beta) :
    ∀ (l : List (Fin n)) (bst c a : Int), a < beta → c ≤ bst → bst ≤ max c a →
      ABRel (abFoldMax child l bst a beta) (plainFoldMax pv l c) a beta := by
  intro l
  induction l with
  | nil =>
    intro bst c a hab hcb hbm
    rw [abFoldMax, plainFoldMax]
    refine ⟨fun hva => ⟨hcb, ?_⟩, fun hbv => ⟨le_trans hbv hcb, ?_⟩, fun hav _ => ?_⟩
    · calc bst ≤ max c a := hbm
        _ = a := max_eq_right hva
    · calc bst ≤ max c a := hbm
        _ = c := max_eq_left (le_of_lt (lt_of_lt_of_le hab hbv))
    · refine le_antisymm ?_ hcb
      calc bst ≤ max c a := hbm
        _ = c := max_eq_left (le_of_lt hav)
  | cons m rest ih =>
    intro bst c a hab hcb hbm
    rw [abFoldMax, plainFoldMax]
    have hch := hchild m a hab
    by_cases hprune : beta ≤ max a (child m a beta)
    · rw [if_pos hprune]
      have hsc : beta ≤ child m a beta := by
        rcases le_max_iff.1 hprune with h | h
        · exact absurd h (not_le_of_gt hab)
        · exact h
      have hpv : beta ≤ pv m := by
        by_contra hpvb
        push_neg at hpvb
        rcases le_or_lt (pv m) a with hlow | hhigh
        · have := (hch.1 hlow).2
          exact absurd (le_trans hsc this) (not_le_of_gt hab)
        · have := hch.2.2 hhigh hpvb
          rw [this] at hsc
          exact absurd hsc (not_le_of_gt hpvb)
      have hscpv := hch.2.1 hpv
      have hVlb : pv m ≤ plainFoldMax pv rest (max c (pv m)) :=
        le_trans (le_max_right c (pv m)) (le_plainFoldMax_seed pv rest _)
      refine ⟨fun hva => absurd hva ?_, fun _ => ⟨?_, ?_⟩, fun _ hvb => absurd hvb ?_⟩
      · push_neg
        exact lt_of_lt_of_le hab (le_trans hpv hVlb)
      · exact le_trans hsc (le_max_right bst _)
      · refine le_trans (max_le ?_ ?_) (le_plainFoldMax_seed pv rest _)
        · calc bst ≤ max c a := hbm
            _ ≤ max c (pv m) := max_le_max (le_refl c) (le_of_lt (lt_of_lt_of_le hab hpv))
        · exact le_trans hscpv.2 (le_max_right c (pv m))
      · push_neg
        exact le_trans hpv hVlb
    · rw [if_neg hprune]
      have ha1 : max a (child m a beta) < beta := lt_of_not_ge hprune
      rcases le_or_lt (pv m) a with hlow | hhigh
      · obtain ⟨hps, hsa⟩ := hch.1 hlow
        have hmaxa : max a (child m a beta) = a := max_eq_left hsa
        rw [hmaxa]
        refine ih (max bst (child m a beta)) (max c (pv m)) a hab
          (max_le_max hcb hps) ?_
        refine max_le ?_ ?_
        · calc bst ≤ max c a := hbm
            _ ≤ max (max c (pv m)) a := max_le_max (le_max_left c (pv m)) (le_refl a)
        · exact le_trans hsa (le_max_right (max c (pv m)) a)
      · rcases lt_or_le (pv m) beta with hwin | hfhigh
        · have hsc : child m a beta = pv m := hch.2.2 hhigh hwin
          have hmaxa : max a (child m a beta) = child m a beta :=
            max_eq_right (by rw [hsc]; exact le_of_lt hhigh)
          rw [hmaxa]
          have hIH := ih (max bst (child m a beta)) (max c (pv m)) (child m a beta)
            (by rw [hsc]; exact hwin)
            (max_le_max hcb (le_of_eq hsc.symm))
            (by
              refine max_le ?_ (le_max_right _ _)
              calc bst ≤ max c a := hbm
                _ ≤ max (max c (pv m)) (child m a beta) :=
                  max_le_max (le_max_left c (pv m)) (by rw [hsc]; exact le_of_lt hhigh))
          have hVlb : child m a beta ≤ plainFoldMax pv rest (max c (pv m)) := by
            rw [hsc]
            exact le_trans (le_max_right c (pv m)) (le_plainFoldMax_seed pv rest _)
          refine ⟨fun hva => absurd hva ?_, hIH.2.1, fun hav hvb => ?_⟩
          · push_neg
            refine lt_of_lt_of_le hhigh ?_
            exact le_trans (le_max_right c (pv m)) (le_plainFoldMax_seed pv rest _)
          · rcases lt_or_eq_of_le hVlb with hlt | heq
            · exact hIH.2.2 hlt hvb
            · have := hIH.1 (le_of_eq heq.symm)
              exact le_antisymm (heq ▸ this.2) (heq ▸ this.1)
        · exfalso
          have := (hch.2.1 hfhigh).1
          exact absurd (lt_of_le_of_lt (le_trans this (le_max_right a _)) ha1)
            (lt_irrefl beta)

/-- Key loop lemma for the minimizing node (dual of `abFoldMax_ABRel`). -/
lemma abFoldMin_ABRel {n : Nat} (child : Fin n → Int → Int → Int) (pv : Fin n → Int)
    (alpha : Int) (hchild : ∀ m b, alpha < b → ABRel (child m alpha b) (pv m) alpha b) :
    ∀ (l : List (Fin n)) (wst c b : Int), alpha < b → wst ≤ c → min c b ≤ wst →
      ABRel (abFoldMin child l wst alpha b) (plainFoldMin pv l c) alpha b := by
  intro l
  induction l with
  | nil =>
    intro wst c b hab hwc hmw
    rw [abFoldMin, plainFoldMin]
    refine ⟨fun hca => ⟨?_, le_trans hwc hca⟩, fun hbc => ⟨?_, hwc⟩, fun hac hcb => ?_⟩
    · calc c = min c b := (min_eq_left (le_of_lt (lt_of_le_of_lt hca hab))).symm
        _ ≤ wst := hmw
    · calc b = min c b := (min_eq_right hbc).symm
        _ ≤ wst := hmw
    · refine le_antisymm hwc ?_
      calc c = min c b := (min_eq_left (le_of_lt hcb)).symm
        _ ≤ wst := hmw
  | cons m rest ih =>
    intro wst c b hab hwc hmw
    rw [abFoldMin, plainFoldMin]
    have hch := hchild m b hab
    by_cases hprune : min b (child m alpha b) ≤ alpha
    · rw [if_pos hprune]
      have hsc : child m alpha b ≤ alpha := by
        rcases min_le_iff.1 hprune with h | h
        · exact absurd h (not_le_of_gt hab)
        · exact h
      have hpv : pv m ≤ alpha := by
        by_contra hpva
        push_neg at hpva
        rcases lt_or_le (pv m) b with hwin | hfh
        · have := hch.2.2 hpva hwin
          rw [this] at hsc
          exact absurd hsc (not_le_of_gt hpva)
        · have := (hch.2.1 hfh).1
          exact absurd (le_trans this hsc) (not_le_of_gt hab)
      have hscpv := hch.1 hpv
      have hVub : plainFoldMin pv rest (min c (pv m)) ≤ pv m :=
        le_trans (plainFoldMin_le_seed pv rest _) (min_le_right c (pv m))
      refine ⟨fun _ => ⟨?_, ?_⟩, fun hbv => absurd hbv ?_, fun hav => absurd hav ?_⟩
      · refine le_min ?_ ?_
        · calc plainFoldMin pv rest (min c (pv m)) ≤ min c (pv m) :=
              plainFoldMin_le_seed pv rest _
            _ ≤ min c b := min_le_min (le_refl c) (le_of_lt (lt_of_le_of_lt hpv hab))
            _ ≤ wst := hmw
        · exact le_trans (le_trans (plainFoldMin_le_seed pv rest _)
            (min_le_right c (pv m))) hscpv.1
      · exact le_trans (min_le_right wst _) hsc
      · push_neg
        exact lt_of_le_of_lt (le_trans hVub hpv) hab
      · push_neg
        exact le_trans hVub hpv
    · rw [if_neg hprune]
      have hb1 : alpha < min b (child m alpha b) := lt_of_not_ge hprune
      have hasc : alpha < child m alpha b := lt_of_lt_of_le hb1 (min_le_right b _)
      rcases le_or_lt b (pv m) with hfh | hrest
      · obtain ⟨hbs, hsp⟩ := hch.2.1 hfh
        have hminb : min b (child m alpha b) = b := min_eq_left hbs
        rw [hminb]
        refine ih (min wst (child m alpha b)) (min c (pv m)) b hab
          (min_le_min hwc hsp) ?_
        refine le_min ?_ ?_
        · calc min (min c (pv m)) b ≤ min c b :=
              min_le_min (min_le_left c (pv m)) (le_refl b)
            _ ≤ wst := hmw
        · exact le_trans (min_le_right (min c (pv m)) b) hbs
      · rcases le_or_lt (pv m) alpha with hlow | hwin
        · exfalso
          have := (hch.1 hlow).2
          exact absurd (lt_of_lt_of_le hasc this) (lt_irrefl alpha)
        · have hsc : child m alpha b = pv m := hch.2.2 hwin hrest
          have hminb : min b (child m alpha b) = child m alpha b :=
            min_eq_right (by rw [hsc]; exact le_of_lt hrest)
          rw [hminb]
          have hIH := ih (min wst (child m alpha b)) (min c (pv m)) (child m alpha b)
            hasc
            (min_le_min hwc (le_of_eq hsc))
            (by
              refine le_min ?_ (min_le_right _ _)
              calc min (min c (pv m)) (child m alpha b)
                  ≤ min c (child m alpha b) :=
                    min_le_min (min_le_left c (pv m)) (le_refl _)
                _ ≤ min c b := min_le_min (le_refl c) (by rw [hsc]; exact le_of_lt hrest)
                _ ≤ wst := hmw)
          have hVub : plainFoldMin pv rest (min c (pv m)) ≤ child m alpha b := by
            rw [hsc]
            exact le_trans (plainFoldMin_le_seed pv rest _) (min_le_right c (pv m))
          refine ⟨hIH.1, fun hbv => absurd hbv ?_, fun hav hvb => ?_⟩
          · push_neg
            refine lt_of_le_of_lt ?_ hrest
            exact le_trans (plainFoldMin_le_seed pv rest _) (min_le_right c (pv m))
          · rcases lt_or_eq_of_le hVub with hlt | heq
            · exact hIH.2.2 hav hlt
            · have := hIH.2.1 (le_of_eq heq.symm)
              exact le_antisymm this.2 (heq ▸ this.1)

lemma mval_ABRel : ∀ (d : Nat) {n : Nat} (s : MinimaxState n) (a b : Int) (mx : Bool),
    a < b → ABRel (mval d s a b mx) (plainVal d s mx) a b := by
  intro d
  induction d with
  | zero =>
    intro n s a b mx hab
    rw [mval, plainVal]
    exact ABRel_self (evalVal s) a b
  | succ d ih =>
    intro n s a b mx hab
    cases mx with
    | true =>
      rw [mval, plainVal]
      rw [if_pos rfl]
      exact abFoldMax_ABRel _ _ b
        (fun m a' ha' => ih (s.make_move m s.bot_id) a' b false ha')
        s.available_cells (-INFINITY) (-INFINITY) a hab (le_refl _) (le_max_left _ _)
    | false =>
      rw [mval, plainVal]
      rw [if_neg (by simp)]
      exact abFoldMin_ABRel _ _ a
        (fun m b' hb' => ih (s.make_move m s.human_id) a b' true hb')
        s.available_cells INFINITY INFINITY b hab (le_refl _) (min_le_left _ _)

lemma mval_full_window {n : Nat} (s : MinimaxState n) (hB : evalBound s ≤ INFINITY)
    (d : Nat) (mx : Bool) : mval d s (-INFINITY) INFINITY mx = plainVal d s mx := by
  have hab : -INFINITY < INFINITY := by decide
  have hAB := mval_ABRel d s (-INFINITY) INFINITY mx hab
  have hbnd := plainVal_bounds d s mx hB
  rcases lt_or_le (-INFINITY) (plainVal d s mx) with hlo | hlo
  · rcases lt_or_le (plainVal d s mx) INFINITY with hhi | hhi
    · exact hAB.2.2 hlo hhi
    · have h := hAB.2.1 hhi
      have hveq : plainVal d s mx = INFINITY := le_antisymm hbnd.2 hhi
      linarith [h.1, h.2]
  · have h := hAB.1 hlo
    have hveq : plainVal d s mx = -INFINITY := le_antisymm hlo hbnd.1
    linarith [h.1, h.2]

lemma evalVal_coreEq {n : Nat} {s t : MinimaxState n} (h : CoreEq s t) :
    evalVal s = evalVal t := by
  unfold evalVal
  rw [h.2.2.2.2.2.1, h.2.2.2.2.2.2.1]
  rw [checkWinVal_coreEq h t.bot_id, checkWinVal_coreEq h t.human_id,
    eps_coreEq h t.bot_id, eps_coreEq h t.human_id]

/-- The maximizing loop of the state-threading `minimax` computes the same
value as the pure fold, and restores the snapshot core. -/
lemma mmGoMax_eq {n : Nat} (d : Nat) (t0 : MinimaxState n)
    (IH : ∀ (u w : MinimaxState n) (a b : Int), CoreEq u w → MaskInv u →
      u.bot_id ≠ 0 → u.human_id ≠ 0 →
      (minimax d u a b false).1 = mval d w a b false ∧ CoreEq (minimax d u a b false).2 u) :
    ∀ (l : List (Fin n)) (s : MinimaxState n) (best alpha beta : Int),
      CoreEq s t0 → MaskInv s → s.bot_id ≠ 0 → s.human_id ≠ 0 →
      (∀ m ∈ l, t0.available_mask m = true) →
      (mmGoMax (fun u a b => minimax d u a b false) l s best alpha beta).1
        = abFoldMax (fun m a b => mval d (t0.make_move m t0.bot_id) a b false) l best alpha beta
      ∧ CoreEq (mmGoMax (fun u a b => minimax d u a b false) l s best alpha beta).2 s := by
  intro l
  induction l with
  | nil =>
    intro s best alpha beta hst _ _ _ _
    exact ⟨rfl, coreEq_refl s⟩
  | cons m rest ih =>
    intro s best alpha beta hst hi hb hh hav
    rw [mmGoMax, abFoldMax]
    have hbid : s.bot_id = t0.bot_id := hst.2.2.2.2.2.1
    have havm : s.available_mask m = true := by
      rw [hst.2.1]
      exact hav m (List.mem_cons_self m rest)
    have hbm : s.board m = 0 := (hi m).1 havm
    have hs1 : CoreEq (s.make_move m s.bot_id) (t0.make_move m t0.bot_id) := by
      rw [hbid]
      exact coreEq_make hst m t0.bot_id
    have hi1 : MaskInv (s.make_move m s.bot_id) := maskInv_make hi hb m
    obtain ⟨hval, hcore⟩ := IH (s.make_move m s.bot_id) (t0.make_move m t0.bot_id)
      alpha beta hs1 hi1 (by rw [MinimaxState.make_move_bot]; exact hb)
      (by rw [MinimaxState.make_move_human]; exact hh)
    have hs3 : CoreEq ((minimax d (s.make_move m s.bot_id) alpha beta false).2.undo_move m) s :=
      coreEq_undo_of_make hcore hbm havm
    rw [hval]
    by_cases hpr : beta ≤ max alpha (mval d (t0.make_move m t0.bot_id) alpha beta false)
    · rw [if_pos hpr, if_pos hpr]
      exact ⟨rfl, hs3⟩
    · rw [if_neg hpr, if_neg hpr]
      obtain ⟨hv2, hc2⟩ := ih ((minimax d (s.make_move m s.bot_id) alpha beta false).2.undo_move m)
        (max best (mval d (t0.make_move m t0.bot_id) alpha beta false))
        (max alpha (mval d (t0.make_move m t0.bot_id) alpha beta false)) beta
        (coreEq_trans hs3 hst) (maskInv_coreEq (coreEq_symm hs3) hi)
        (by rw [hs3.2.2.2.2.2.1]; exact hb)
        (by rw [hs3.2.2.2.2.2.2.1]; exact hh)
        (fun x hx => hav x (List.mem_cons_of_mem m hx))
      exact ⟨hv2, coreEq_trans hc2 hs3⟩

/-- The minimizing loop of the state-threading `minimax` computes the same
value as the pure fold, and restores the snapshot core. -/
lemma mmGoMin_eq {n : Nat} (d : Nat) (t0 : MinimaxState n)
    (IH : ∀ (u w : MinimaxState n) (a b : Int), CoreEq u w → MaskInv u →
      u.bot_id ≠ 0 → u.human_id ≠ 0 →
      (minimax d u a b true).1 = mval d w a b true ∧ CoreEq (minimax d u a b true).2 u) :
    ∀ (l : List (Fin n)) (s : MinimaxState n) (worst alpha beta : Int),
      CoreEq s t0 → MaskInv s → s.bot_id ≠ 0 → s.human_id ≠ 0 →
      (∀ m ∈ l, t0.available_mask m = true) →
      (mmGoMin (fun u a b => minimax d u a b true) l s worst alpha beta).1
        = abFoldMin (fun m a b => mval d (t0.make_move m t0.human_id) a b true) l worst alpha beta
      ∧ CoreEq (mmGoMin (fun u a b => minimax d u a b true) l s worst alpha beta).2 s := by
  intro l
  induction l with
  | nil =>
    intro s worst alpha beta hst _ _ _ _
    exact ⟨rfl, coreEq_refl s⟩
  | cons m rest ih =>
    intro s worst alpha beta hst hi hb hh hav
    rw [mmGoMin, abFoldMin]
    have hhid : s.human_id = t0.human_id := hst.2.2.2.2.2.2.1
    have havm : s.available_mask m = true := by
      rw [hst.2.1]
      exact hav m (List.mem_cons_self m rest)
    have hbm : s.board m = 0 := (hi m).1 havm
    have hs1 : CoreEq (s.make_move m s.human_id) (t0.make_move m t0.human_id) := by
      rw [hhid]
      exact coreEq_make hst m t0.human_id
    have hi1 : MaskInv (s.make_move m s.human_id) := maskInv_make hi hh m
    obtain ⟨hval, hcore⟩ := IH (s.make_move m s.human_id) (t0.make_move m t0.human_id)
      alpha beta hs1 hi1 (by rw [MinimaxState.make_move_bot]; exact hb)
      (by rw [MinimaxState.make_move_human]; exact hh)
    have hs3 : CoreEq ((minimax d (s.make_move m s.human_id) alpha beta true).2.undo_move m) s :=
      coreEq_undo_of_make hcore hbm havm
    rw [hval]
    by_cases hpr : min beta (mval d (t0.make_move m t0.human_id) alpha beta true) ≤ alpha
    · rw [if_pos hpr, if_pos hpr]
      exact ⟨rfl, hs3⟩
    · rw [if_neg hpr, if_neg hpr]
      obtain ⟨hv2, hc2⟩ := ih ((minimax d (s.make_move m s.human_id) alpha beta true).2.undo_move m)
        (min worst (mval d (t0.make_move m t0.human_id) alpha beta true)) alpha
        (min beta (mval d (t0.make_move m t0.human_id) alpha beta true))
        (coreEq_trans hs3 hst) (maskInv_coreEq (coreEq_symm hs3) hi)
        (by rw [hs3.2.2.2.2.2.1]; exact hb)
        (by rw [hs3.2.2.2.2.2.2.1]; exact hh)
        (fun x hx => hav x (List.mem_cons_of_mem m hx))
      exact ⟨hv2, coreEq_trans hc2 hs3⟩

/-- The value component of the state-threading `minimax` equals the pure
recursion `mval`, and `minimax` restores the snapshot core. -/
lemma minimax_fst_eq_mval : ∀ (d : Nat) {n : Nat} (s t : MinimaxState n) (a b : Int)
    (mx : Bool), CoreEq s t → MaskInv s → s.bot_id ≠ 0 → s.human_id ≠ 0 →
    (minimax d s a b mx).1 = mval d t a b mx ∧ CoreEq (minimax d s a b mx).2 s := by
  intro d
  induction d with
  | zero =>
    intro n s t a b mx hst hi hb hh
    rw [minimax, mval]
    exact ⟨(evaluate_state_fst s).1.trans (evalVal_coreEq hst), (evaluate_state_fst s).2⟩
  | succ d ih =>
    intro n s t a b mx hst hi hb hh
    cases mx with
    | true =>
      rw [minimax, mval]
      rw [if_pos rfl, if_pos rfl]
      rw [available_cells_coreEq hst]
      exact mmGoMax_eq d t (fun u w a' b' hc hiu hbu hhu => ih u w a' b' false hc hiu hbu hhu)
        t.available_cells s (-INFINITY) a b hst hi hb hh
        (fun m hm => mem_available_mask hm)
    | false =>
      rw [minimax, mval]
      rw [if_neg (by simp), if_neg (by simp)]
      rw [available_cells_coreEq hst]
      exact mmGoMin_eq d t (fun u w a' b' hc hiu hbu hhu => ih u w a' b' true hc hiu hbu hhu)
        t.available_cells s INFINITY a b hst hi hb hh
        (fun m hm => mem_available_mask hm)

/-- Claim C3 — Alpha-beta equivalence: for every snapshot satisfying the
availability invariant (with the nonzero player ids every snapshot is built
with) and whose static evaluations cannot escape the `(-INFINITY, INFINITY)`
start window (guaranteed by the computable cache bound `evalBound`, which is
far below `INFINITY` for any realistic board), the alpha-beta `minimax`
called with the full window returns exactly the value of the exhaustive
minimax without pruning, at every depth and for both maximizing flags. -/
theorem alphabeta_eq_plain {n : Nat} (s : MinimaxState n) (hi : MaskInv s)
    (hbot : s.bot_id ≠ 0) (hhum : s.human_id ≠ 0) (hB : evalBound s ≤ INFINITY)
    (depth : Nat) (maximizing : Bool) :
    (minimax depth s (-INFINITY) INFINITY maximizing).1 = plainVal depth s maximizing := by
  rw [(minimax_fst_eq_mval depth s s (-INFINITY) INFINITY maximizing
    (coreEq_refl s) hi hbot hhum).1]
  exact mval_full_window s hB depth maximizing

/-- Witness for C3 on the snapshot `S4` at depth 2. -/
theorem alphabeta_eq_plain_witness :
    (MaskInv S4 ∧ S4.bot_id ≠ 0 ∧ S4.human_id ≠ 0 ∧ evalBound S4 ≤ INFINITY) ∧
      (minimax 2 S4 (-INFINITY) INFINITY true).1 = plainVal 2 S4 true :=
  ⟨⟨by decide, by decide, by decide, by decide⟩,
   alphabeta_eq_plain S4 (by decide) (by decide) (by decide) (by decide) 2 true⟩

/-! ### Iterative deepening returns an available cell (claims C9 and C8) -/

lemma position_spec {n : Nat} (pv : Fin n) :
    ∀ (l : List (Fin n)) (i : Nat), position pv l = some i →
      i < l.length ∧ ∀ d, l.getD i d = pv := by
  intro l
  induction l with
  | nil => intro i h; exact absurd h (by simp [position])
  | cons m rest ih =>
    intro i h
    rw [position] at h
    by_cases hm : m = pv
    · rw [if_pos hm] at h
      have : i = 0 := by simpa using h.symm
      subst this
      exact ⟨by simp, fun d => hm⟩
    · rw [if_neg hm] at h
      rcases Option.map_eq_some'.1 h with ⟨j, hj, rfl⟩
      obtain ⟨hjl, hjd⟩ := ih j hj
      constructor
      · simpa using Nat.succ_lt_succ hjl
      · intro d
        simpa using hjd d

lemma moveOrder_mem {n : Nat} (moves : List (Fin n)) (pv : Option (Fin n)) :
    ∀ x ∈ moveOrder moves pv, x ∈ moves := by
  intro x hx
  cases pv with
  | none => exact hx
  | some pvv =>
    rw [moveOrder] at hx
    cases hpos : position pvv moves with
    | none => rw [hpos] at hx; exact hx
    | some pos =>
      rw [hpos] at hx
      obtain ⟨hlt, hget⟩ := position_spec pvv moves pos hpos
      have hpvmem : pvv ∈ moves := by
        have h1 := hget pvv
        rw [List.getD_eq_getElem moves pvv hlt] at h1
        rw [← h1]
        exact List.getElem_mem hlt
      have hlen0 : 0 < moves.length := lt_of_le_of_lt (Nat.zero_le pos) hlt
      rcases List.mem_or_eq_of_mem_set hx with hx1 | hx1
      · rcases List.mem_or_eq_of_mem_set hx1 with hx2 | hx2
        · exact hx2
        · rw [hx2, hget pvv]
          exact hpvmem
      · rw [hx1]
        have : moves.getD 0 pvv = moves[0] := List.getD_eq_getElem moves pvv hlen0
        rw [this]
        exact List.getElem_mem hlen0

lemma moveOrder_length {n : Nat} (moves : List (Fin n)) (pv : Option (Fin n)) :
    (moveOrder moves pv).length = moves.length := by
  cases pv with
  | none => rfl
  | some pvv =>
    rw [moveOrder]
    cases hpos : position pvv moves with
    | none => rfl
    | some pos => rw [List.length_set, List.length_set]

/-- The `search_best_move` loop returns either the fallback or a scanned
cell, and restores the snapshot core. -/
lemma sbmGo_spec {n : Nat} (d : Nat) (t0 : MinimaxState n) :
    ∀ (l : List (Fin n)) (s : MinimaxState n) (bm : Fin n) (bs : Int),
      CoreEq s t0 → MaskInv s → s.bot_id ≠ 0 → s.human_id ≠ 0 →
      (∀ m ∈ l, t0.available_mask m = true) →
      ((sbmGo d l s bm bs).1.1 = bm ∨ (sbmGo d l s bm bs).1.1 ∈ l)
      ∧ CoreEq (sbmGo d l s bm bs).2 s := by
  intro l
  induction l with
  | nil =>
    intro s bm bs hst _ _ _ _
    exact ⟨Or.inl rfl, coreEq_refl s⟩
  | cons m rest ih =>
    intro s bm bs hst hi hb hh hav
    rw [sbmGo]
    have havm : s.available_mask m = true := by
      rw [hst.2.1]
      exact hav m (List.mem_cons_self m rest)
    have hbm0 : s.board m = 0 := (hi m).1 havm
    have hi1 : MaskInv (s.make_move m s.bot_id) := maskInv_make hi hb m
    have hcore : CoreEq (minimax d (s.make_move m s.bot_id) (-INFINITY) INFINITY false).2
        (s.make_move m s.bot_id) :=
      (minimax_fst_eq_mval d (s.make_move m s.bot_id) (s.make_move m s.bot_id)
        (-INFINITY) INFINITY false (coreEq_refl _) hi1
        (by rw [MinimaxState.make_move_bot]; exact hb)
        (by rw [MinimaxState.make_move_human]; exact hh)).2
    have hs3 : CoreEq ((minimax d (s.make_move m s.bot_id) (-INFINITY) INFINITY
        false).2.undo_move m) s :=
      coreEq_undo_of_make hcore hbm0 havm
    have hrest : ∀ x ∈ rest, t0.available_mask x = true :=
      fun x hx => hav x (List.mem_cons_of_mem m hx)
    by_cases hlt : bs < (minimax d (s.make_move m s.bot_id) (-INFINITY) INFINITY false).1
    · rw [if_pos hlt]
      obtain ⟨hv, hc⟩ := ih ((minimax d (s.make_move m s.bot_id) (-INFINITY) INFINITY
          false).2.undo_move m) m
        (minimax d (s.make_move m s.bot_id) (-INFINITY) INFINITY false).1
        (coreEq_trans hs3 hst) (maskInv_coreEq (coreEq_symm hs3) hi)
        (by rw [hs3.2.2.2.2.2.1]; exact hb)
        (by rw [hs3.2.2.2.2.2.2.1]; exact hh) hrest
      refine ⟨?_, coreEq_trans hc hs3⟩
      rcases hv with hv | hv
      · exact Or.inr (by rw [hv]; exact List.mem_cons_self m rest)
      · exact Or.inr (List.mem_cons_of_mem m hv)
    · rw [if_neg hlt]
      obtain ⟨hv, hc⟩ := ih ((minimax d (s.make_move m s.bot_id) (-INFINITY) INFINITY
          false).2.undo_move m) bm bs
        (coreEq_trans hs3 hst) (maskInv_coreEq (coreEq_symm hs3) hi)
        (by rw [hs3.2.2.2.2.2.1]; exact hb)
        (by rw [hs3.2.2.2.2.2.2.1]; exact hh) hrest
      refine ⟨?_, coreEq_trans hc hs3⟩
      rcases hv with hv | hv
      · exact Or.inl hv
      · exact Or.inr (List.mem_cons_of_mem m hv)

/-- `search_best_move` on a snapshot with at least one available cell returns
a move from the snapshot's available cells and restores the snapshot core. -/
lemma search_best_move_spec {n : Nat} (s : MinimaxState n) (depth : Nat)
    (pv : Option (Fin n)) (hi : MaskInv s) (hb : s.bot_id ≠ 0) (hh : s.human_id ≠ 0)
    (hne : s.available_cells ≠ []) :
    ∃ mv sc s1, search_best_move s depth pv = (some (mv, sc), s1)
      ∧ mv ∈ s.available_cells ∧ CoreEq s1 s := by
  unfold search_best_move
  have hlen : (moveOrder s.available_cells pv).length = s.available_cells.length :=
    moveOrder_length s.available_cells pv
  cases hmv : moveOrder s.available_cells pv with
  | nil =>
    exfalso
    rw [hmv] at hlen
    exact hne (List.eq_nil_of_length_eq_zero hlen.symm)
  | cons m0 mrest =>
    have hsub : ∀ x ∈ m0 :: mrest, x ∈ s.available_cells := by
      rw [← hmv]
      exact moveOrder_mem s.available_cells pv
    obtain ⟨hv, hc⟩ := sbmGo_spec (depth - 1) s (m0 :: mrest) s m0 (-INFINITY)
      (coreEq_refl s) hi hb hh
      (fun m hm => mem_available_mask (hsub m hm))
    refine ⟨(sbmGo (depth - 1) (m0 :: mrest) s m0 (-INFINITY)).1.1,
      (sbmGo (depth - 1) (m0 :: mrest) s m0 (-INFINITY)).1.2,
      (sbmGo (depth - 1) (m0 :: mrest) s m0 (-INFINITY)).2, rfl, ?_, hc⟩
    rcases hv with hv | hv
    · rw [hv]
      exact hsub m0 (List.mem_cons_self m0 mrest)
    · exact hsub _ hv

/-- The iterative-deepening loop always returns a cell from the original
snapshot's available set (given at least one available cell). -/
lemma idsGo_spec {n : Nat} (limit : Nat) (clock : Nat → Nat) (t0 : MinimaxState n) :
    ∀ (rem depth tick : Nat) (s : MinimaxState n) (best : Fin n) (pv : Option (Fin n)),
      CoreEq s t0 → MaskInv s → s.bot_id ≠ 0 → s.human_id ≠ 0 →
      best ∈ t0.available_cells →
      ∃ c s1, idsGo limit clock rem depth tick s best pv = (some c, s1)
        ∧ c ∈ t0.available_cells := by
  intro rem
  induction rem with
  | zero =>
    intro depth tick s best pv hst _ _ _ hbm
    exact ⟨best, s, rfl, hbm⟩
  | succ rem ih =>
    intro depth tick s best pv hst hi hb hh hbm
    rw [idsGo]
    by_cases hclock : limit ≤ clock tick
    · rw [if_pos hclock]
      exact ⟨best, s, rfl, hbm⟩
    · rw [if_neg hclock]
      have hne : s.available_cells ≠ [] := by
        rw [available_cells_coreEq hst]
        intro hnil
        rw [hnil] at hbm
        exact absurd hbm (List.not_mem_nil best)
      obtain ⟨mv, sc, s1, heq, hmem, hcs1⟩ := search_best_move_spec s depth pv hi hb hh hne
      rw [heq]
      dsimp only
      have hmemt : mv ∈ t0.available_cells := by
        rw [← available_cells_coreEq hst]
        exact hmem
      by_cases hwin : WIN_SCORE - 100 ≤ sc
      · rw [if_pos hwin]
        exact ⟨mv, s1, rfl, hmemt⟩
      · rw [if_neg hwin]
        by_cases hclock2 : limit ≤ clock (tick + 1)
        · rw [if_pos hclock2]
          exact ⟨mv, s1, rfl, hmemt⟩
        · rw [if_neg hclock2]
          exact ih (depth + 1) (tick + 2) s1 mv (some mv)
            (coreEq_trans hcs1 hst) (maskInv_coreEq (coreEq_symm hcs1) hi)
            (by rw [hcs1.2.2.2.2.2.1]; exact hb)
            (by rw [hcs1.2.2.2.2.2.2.1]; exact hh) hmemt

/-- Core of claims C9/C8: `iterative_deepening_search` returns an available
cell of the snapshot whenever one exists, for every budget and clock. -/
lemma iterative_deepening_mem {n : Nat} (s : MinimaxState n) (hi : MaskInv s)
    (hb : s.bot_id ≠ 0) (hh : s.human_id ≠ 0) (hne : s.available_cells ≠ [])
    (max_time_ms : Nat) (clock : Nat → Nat) :
    ∃ c s1, iterative_deepening_search s max_time_ms clock = (some c, s1)
      ∧ c ∈ s.available_cells := by
  unfold iterative_deepening_search
  cases hav : s.available_cells with
  | nil => exact absurd hav hne
  | cons m0 mrest =>
    obtain ⟨c, s1, he, hm⟩ := idsGo_spec max_time_ms clock s 100 1 0 s m0 none
      (coreEq_refl s) hi hb hh (by rw [hav]; exact List.mem_cons_self m0 mrest)
    exact ⟨c, s1, he, hav ▸ hm⟩

/-- Claim C9 — Zero-budget fallback: for every snapshot with at least one
available cell, `iterative_deepening_search` returns an available cell of
the snapshot for *every* time budget and clock — in particular for a budget
of 0 (or near-0) milliseconds, where the pre-deadline fallback (the first
available cell) is returned; budget exhaustion is a normal return of the
best move found so far, never an error. -/
theorem zero_budget_returns_available {n : Nat} (s : MinimaxState n) (hi : MaskInv s)
    (hbot : s.bot_id ≠ 0) (hhum : s.human_id ≠ 0) (hne : s.available_cells ≠ [])
    (max_time_ms : Nat) (clock : Nat → Nat) :
    ∃ c s1, iterative_deepening_search s max_time_ms clock = (some c, s1)
      ∧ c ∈ s.available_cells :=
  iterative_deepening_mem s hi hbot hhum hne max_time_ms clock

/-- Witness for C9: on `S4` with a zero budget the driver still returns an
available cell. -/
theorem zero_budget_returns_available_witness :
    (MaskInv S4 ∧ S4.bot_id ≠ 0 ∧ S4.human_id ≠ 0 ∧ S4.available_cells ≠ []) ∧
      (∃ c s1, iterative_deepening_search S4 0 (fun _ => 0) = (some c, s1)
        ∧ c ∈ S4.available_cells) :=
  ⟨⟨by decide, by decide, by decide, by decide⟩,
   zero_budget_returns_available S4 (by decide) (by decide) (by decide) (by decide)
     0 (fun _ => 0)⟩

lemma new_available_ne_nil {n : Nat} (g : GameModel n) (p : Nat) (hne : g.available ≠ []) :
    (MinimaxState.new g p).available_cells ≠ [] := by
  cases hav : g.available with
  | nil => exact absurd hav hne
  | cons x rest =>
    have hmask : (MinimaxState.new g p).available_mask x = true := by
      show (g.available.contains x = true)
      rw [List.elem_iff, hav]
      exact List.mem_cons_self x rest
    have : x ∈ (MinimaxState.new g p).available_cells := by
      unfold MinimaxState.available_cells
      rw [List.mem_filter]
      exact ⟨List.mem_finRange x, hmask⟩
    exact List.ne_nil_of_mem this

lemma greedy_none_coreEq {n : Nat} (s : MinimaxState n) (hi : MaskInv s)
    (h : (greedy_search s).1 = none) : CoreEq (greedy_search s).2 s := by
  have hspec := greedyGo_spec s hi s.available_cells s (coreEq_refl s)
    (fun m hm => mem_available_mask hm)
  rw [← greedy_search_eq] at hspec
  rcases hspec with ⟨-, hcore, -⟩ | ⟨l1, c, l2, -, -, -, hres, -⟩
  · exact hcore
  · rw [hres] at h
    exact absurd h (by simp)

/-- Claim C8 — Game-over signalling: assuming the externally supplied game is
consistent (its availability set lists exactly the unowned cells, and a game
with a player to move has at least one available cell — both spec-mandated
properties of the external game model), `choose_move` returns no move exactly
when the game reports no player to act, and whenever a player is to move it
returns some cell; the game-over case is the normal `Except.ok none` return,
never the error path. -/
theorem choose_move_game_over {n : Nat} (g : GameModel n) (limit : Nat) (clock : Nat → Nat)
    (hcomp : GameComplementary g) (hav : ∀ p, g.next_player = some p → g.available ≠ []) :
    (choose_move g limit clock = Except.ok none ↔ g.next_player = none)
    ∧ (∀ p, g.next_player = some p →
        ∃ c, choose_move g limit clock = Except.ok (some c)) := by
  cases hnp : g.next_player with
  | none =>
    constructor
    · constructor
      · intro _; rfl
      · intro _
        unfold choose_move
        rw [hnp]
    · intro p hp
      exact absurd hp (by simp)
  | some p =>
    have hsome : ∃ c, choose_move g limit clock = Except.ok (some c) := by
      rcases hg : greedy_search (MinimaxState.new g p) with ⟨o, st⟩
      cases o with
      | some c =>
        refine ⟨c, ?_⟩
        unfold choose_move
        rw [hnp]
        dsimp only
        rw [hg]
      | none =>
        have hi : MaskInv (MinimaxState.new g p) := maskInv_new g p hcomp
        have hfst : (greedy_search (MinimaxState.new g p)).1 = none := by rw [hg]
        have hst : CoreEq st (MinimaxState.new g p) := by
          have := greedy_none_coreEq (MinimaxState.new g p) hi hfst
          rw [hg] at this
          exact this
        have hist : MaskInv st := maskInv_coreEq (coreEq_symm hst) hi
        have hbst : st.bot_id ≠ 0 := by
          rw [hst.2.2.2.2.2.1]
          exact Nat.succ_ne_zero p
        have hhst : st.human_id ≠ 0 := by
          rw [hst.2.2.2.2.2.2.1]
          exact Nat.succ_ne_zero (other_player p)
        have hnest : st.available_cells ≠ [] := by
          rw [available_cells_coreEq hst]
          exact new_available_ne_nil g p (hav p hnp)
        obtain ⟨c, s1, he, -⟩ := iterative_deepening_mem st hist hbst hhst hnest limit clock
        refine ⟨c, ?_⟩
        unfold choose_move
        rw [hnp]
        dsimp only
        rw [hg]
        dsimp only
        rw [he]
    obtain ⟨c, hc⟩ := hsome
    constructor
    · constructor
      · intro h
        rw [hc] at h
        exact absurd h (by simp)
      · intro h
        exact absurd h (by simp)
    · intro q _
      exact ⟨c, hc⟩

/-- Witness for C8 on the concrete game `g4` (player 0 to move): the engine
returns a move, and the no-move return is equivalent to game over. -/
theorem choose_move_game_over_witness :
    (GameComplementary g4 ∧ (∀ p, g4.next_player = some p → g4.available ≠ [])) ∧
      ((choose_move g4 0 (fun _ => 0) = Except.ok none ↔ g4.next_player = none)
      ∧ (∀ p, g4.next_player = some p →
          ∃ c, choose_move g4 0 (fun _ => 0) = Except.ok (some c))) :=
  ⟨⟨by decide, fun p _ => by decide⟩,
   choose_move_game_over g4 0 (fun _ => 0) (by decide) (fun p _ => by decide)⟩
